import Mathlib

/-!
Verification of primalscheme3 / primal_digest core algorithms.

This file gives a shallow embedding, in Lean 4, of the parts of the
primer-scheme designer that the checked claims are about:

* `primal_digest/mismatches.py` — the MatchDB query layer and the
  mispriming detector `detect_new_products`;
* `primal_digest/classes.py` — `FKmer`, `RKmer`, `PrimerPair` and the
  stateful `Scheme` solver (`add_primer_pair_to_pool`,
  `remove_last_primer_pair`, `add_first_primer_pair`,
  `try_ol_primerpairs`, `try_backtrack`, `try_circular`);
* `primalscheme3/core/classes.py` — the core `FKmer`/`RKmer`/`PrimerPair`
  (hashing, BED serialization, `set_pool_number`);
* `primalscheme3/core/digestion.py` — `walk_left` and
  `generate_valid_primerpairs`;
* `primalscheme3/core/bedfiles.py` — `BedLine` and
  `read_in_bedprimerpairs`.

Modelling conventions:

* Python `int` is `Int`; list/array indices that the code keeps
  non-negative are `Nat`.
* A Python `set` of strings is modelled by a `List String` carrying the
  set's iteration order; where only the contents matter the development
  uses `Finset`/`Multiset` or membership statements so that the model's
  choice of order is irrelevant.
* Stored match tuples `(msa_index, position, strand)` are
  `Int × Int × Char`; the per-pool unions of match tuples kept by the
  solver are `Finset` values, matching Python set semantics (content
  equality, content-determined membership).
* Fallible operations (Python `IndexError` on list indexing / `pop`)
  return `Option`; `none` models an uncaught exception.
* External oracles that are not part of this repository
  (`primaldimer_py.do_pools_interact_py`, `which_kmers_pools_interact`,
  the primer3 Tm oracle, and the floating-point score functions that only
  determine a sort order) are parameters of the embedding.
* Helpers of this repository that are imported by the sources but whose
  defining file is absent (`get_pp_window`, `get_r_window_FAST2`,
  `expand_ambs`, `reverse_complement`, `get_most_common_base`) are
  modelled from the specification; each such definition is marked
  `Modelled from the spec:` in its doc comment.
-/

namespace Primal

/-- Python list indexing: translate a possibly negative index into a
position, `none` when out of range (Python raises `IndexError`). -/
def pyNatIdx {α : Type} (l : List α) (i : Int) : Option Nat :=
  if 0 ≤ i then
    (if i.toNat < l.length then some i.toNat else none)
  else
    (if (-i).toNat ≤ l.length then some (l.length - (-i).toNat) else none)

/-- Python `l[i]` (negative indices count from the end); `none` models
`IndexError`. -/
def pyGet {α : Type} (l : List α) (i : Int) : Option α :=
  (pyNatIdx l i).bind l.get?

/-- Apply `f` to the element at Python index `i`, leaving the list
unchanged when the index is out of range (call sites are guarded in the
source; out-of-range mutation never occurs on the paths we verify). -/
def pyApply {α : Type} (l : List α) (i : Int) (f : α → α) : List α :=
  match pyNatIdx l i with
  | some j =>
    match l.get? j with
    | some a => l.set j (f a)
    | none => l
  | none => l

/-- Worker for `dedupFO`, carrying the elements already emitted. -/
def dedupFOAux {α : Type} [DecidableEq α] (seen : List α) : List α → List α
  | [] => []
  | a :: as =>
    if a ∈ seen then dedupFOAux seen as
    else a :: dedupFOAux (seen ++ [a]) as

/-- First-occurrence deduplication: the model of iterating a Python set
built from a list of insertions (order chosen deterministically; all
theorems are stated so that this choice is irrelevant). -/
def dedupFO {α : Type} [DecidableEq α] (l : List α) : List α :=
  dedupFOAux [] l

/-- Python `s[-k:]` for `k : Nat` (with the `-0 == 0` quirk: `s[-0:]`
is the whole string, and `k ≥ len(s)` also yields the whole string). -/
def pySuffix (k : Nat) (s : String) : String :=
  if k = 0 then s else ⟨s.data.drop (s.data.length - k)⟩

/-- Python `s[:k]` for `k : Nat`. -/
def pyPrefix (k : Nat) (s : String) : String :=
  ⟨s.data.take k⟩

/-- A stored MatchDB tuple `(msa_index, position, strand)`. -/
abbrev MatchT : Type := Int × Int × Char

/-- The contents of a MatchDB: `read_matches` of `mismatches.py`
abstracted to the mapping it realises from a key k-mer to the stored
`(msa_index, position)` records (the dbm encoding with `*`/`;`
delimiters is a bijective detail of storage). -/
abbrev MatchDBModel : Type := String → List (Int × Int)

/-- Modelled from the spec: `reverse_complement`
(`primal_digest/seq_functions.py`, absent from the sources) —
"uses the IUPAC complement table, including self-complements for
`W,S,N,-`" (§4.A); characters outside the table are left unchanged. -/
def complementBase (c : Char) : Char :=
  if c = 'A' then 'T' else if c = 'T' then 'A'
  else if c = 'C' then 'G' else if c = 'G' then 'C'
  else if c = 'M' then 'K' else if c = 'K' then 'M'
  else if c = 'R' then 'Y' else if c = 'Y' then 'R'
  else if c = 'V' then 'B' else if c = 'B' then 'V'
  else if c = 'H' then 'D' else if c = 'D' then 'H'
  else c

/-- Modelled from the spec: IUPAC reverse complement (§4.A). -/
def reverseComplement (s : String) : String :=
  ⟨(s.data.map complementBase).reverse⟩

/-- `MUTATIONS` of `mismatches.py`: the three single-substitution
alternatives of each concrete base.  The source performs
`MUTATIONS.get(base)` and would raise `TypeError` when iterating the
`None` returned for a non-ACGT character; the model restricts to the
ACGT domain on which the solver invokes it and yields no alternatives
elsewhere. -/
def mutationsOf (c : Char) : List Char :=
  if c = 'A' then ['C', 'G', 'T']
  else if c = 'C' then ['A', 'G', 'T']
  else if c = 'G' then ['C', 'A', 'T']
  else if c = 'T' then ['C', 'G', 'A']
  else []

/-- `generate_single_mismatches` of `mismatches.py`: the base sequence
together with every single-substitution neighbour (a Python set; listed
here in generation order). -/
def generateSingleMismatches (baseSeq : String) : List String :=
  let cs := baseSeq.data
  let muts := (List.range cs.length).flatMap (fun mutIndex =>
    (mutationsOf (cs.getD mutIndex ' ')).map (fun altBase =>
      ⟨cs.take mutIndex ++ [altBase] ++ cs.drop (mutIndex + 1)⟩))
  dedupFO (baseSeq :: muts)

/-- `MatchDB.find_match`: all stored matches of `sequence` labelled
`'+'`, then all stored matches of its reverse complement labelled
`'-'`. -/
def findMatch (db : MatchDBModel) (sequence : String) : List MatchT :=
  (db sequence).map (fun m => (m.1, m.2, '+'))
    ++ (db (reverseComplement sequence)).map (fun m => (m.1, m.2, '-'))

/-- `MatchDB.find_matches`: matches of a collection of sequences, with
optional single-substitution fuzzy expansion of the queries (the Python
result is a set; the model lists its elements). -/
def findMatches (db : MatchDBModel) (seqs : List String) (fuzzy : Bool) :
    List MatchT :=
  let searchSeqs := if fuzzy then dedupFO (seqs.flatMap generateSingleMismatches)
                    else seqs
  dedupFO (searchSeqs.flatMap (findMatch db))

/-- `FKmer` data of `classes.py` / `core/classes.py`: terminal anchor
column `end` (here `endCol`; `end` is a Lean keyword) and the sequence
set `seqs` in iteration order. -/
structure FKmerC where
  endCol : Int
  seqs : List String
deriving DecidableEq, Repr

/-- `RKmer` data: anchor column `start` and the sequence set `seqs`
(already in reverse-complement, i.e. physical-primer, orientation). -/
structure RKmerC where
  start : Int
  seqs : List String
deriving DecidableEq, Repr

/-- `FKmer.starts()`: `{end - len(x) for x in seqs}` (listed). -/
def fkStarts (f : FKmerC) : List Int :=
  f.seqs.map (fun s => f.endCol - (s.length : Int))

/-- `RKmer.ends()`: `{len(x) + start for x in seqs}` (listed). -/
def rkEnds (r : RKmerC) : List Int :=
  r.seqs.map (fun s => r.start + (s.length : Int))

/-- Python `min` over a non-empty int list (`min([])` raises; every call
site passes a non-empty list, and the `0` default is never exercised on
verified paths). -/
def minIntList : List Int → Int
  | [] => 0
  | x :: xs => xs.foldl min x

/-- Python `max` over a non-empty int list (same convention). -/
def maxIntList : List Int → Int
  | [] => 0
  | x :: xs => xs.foldl max x

/-- `MatchDB.find_fkmer` (`mismatches.py` lines 105-134): query the
3'-end `kmersize`-length suffix of every sequence; when
`remove_expected` is set, keep only the matches whose position differs
from `fkmer.end - kmersize` **and** whose msa index equals `msaindex`. -/
def find_fkmer (db : MatchDBModel) (fkmer : FKmerC) (fuzzy : Bool)
    (kmersize : Nat) (msaindex : Int) (removeExpected : Bool) :
    List MatchT :=
  let kmerSeqs := dedupFO (fkmer.seqs.map (pySuffix kmersize))
  let found := findMatches db kmerSeqs fuzzy
  if removeExpected then
    found.filter (fun m =>
      m.2.1 ≠ fkmer.endCol - (kmersize : Int) ∧ m.1 = msaindex)
  else found

/-- `MatchDB.find_rkmer` (`mismatches.py` lines 136-165): query the
5'-end `kmersize`-length prefix of every sequence; the expected-match
filter keeps matches with position `≠ rkmer.start` and msa index
`= msaindex`. -/
def find_rkmer (db : MatchDBModel) (rkmer : RKmerC) (fuzzy : Bool)
    (kmersize : Nat) (msaindex : Int) (removeExpected : Bool) :
    List MatchT :=
  let kmerSeqs := dedupFO (rkmer.seqs.map (pyPrefix kmersize))
  let found := findMatches db kmerSeqs fuzzy
  if removeExpected then
    found.filter (fun m => m.2.1 ≠ rkmer.start ∧ m.1 = msaindex)
  else found

/-- `detect_new_products` (`mismatches.py` lines 220-264): split each
side into `'+'` and `'-'` entries and report a hit when a new `'+'`
lies within `product_size` upstream of an old `'-'`, or an old `'+'`
within `product_size` upstream of a new `'-'`, on the same msa. -/
def detect_new_products (newMatches oldMatches : List MatchT)
    (productSize : Int) : Bool :=
  let fmatches := newMatches.filter (fun m => m.2.2 = '+')
  let rmatches := newMatches.filter (fun m => m.2.2 = '-')
  let oldFmatches := oldMatches.filter (fun m => m.2.2 = '+')
  let oldRmatches := oldMatches.filter (fun m => m.2.2 = '-')
  (fmatches.any (fun fm => oldRmatches.any (fun orm =>
      fm.1 = orm.1 ∧ 0 < orm.2.1 - fm.2.1 ∧ orm.2.1 - fm.2.1 < productSize)))
  || (rmatches.any (fun rm => oldFmatches.any (fun ofm =>
      rm.1 = ofm.1 ∧ 0 < rm.2.1 - ofm.2.1 ∧ rm.2.1 - ofm.2.1 < productSize)))

/-- Code-point comparison on character lists: the model of Python's
lexicographic string `<=` (Lean's built-in `String.le` decision
procedure does not reduce in the kernel, so the order is defined afresh
here). -/
def strLeB : List Char → List Char → Bool
  | [], _ => true
  | _ :: _, [] => false
  | a :: as, b :: bs =>
    if a.toNat < b.toNat then true
    else if b.toNat < a.toNat then false
    else strLeB as bs

/-- Python's string order, as a proposition. -/
def strLe (a b : String) : Prop := strLeB a.data b.data = true

instance strLe.decRel : DecidableRel strLe := fun a b => by
  unfold strLe; infer_instance

/-- Python `sorted` on a list of strings (stable; implemented by
Mathlib's insertion sort, which is also stable). -/
def pySorted (l : List String) : List String := List.insertionSort strLe l

/-- The single-quote character of Python's `repr` of strings. -/
def pyQuote : String := (Char.ofNat 39).toString

/-- The f-string image `f"{seqs}"` of a Python `set[str]` whose
iteration order is the list order: `\x7b'a', 'b'\x7d`. -/
def pySetReprStr (seqs : List String) : String :=
  "\x7b" ++ String.intercalate ", " (seqs.map (fun s => pyQuote ++ s ++ pyQuote))
    ++ "\x7d"

/-- The string hashed by `FKmer.__hash__`
(`core/classes.py` lines 47-50 and `primal_digest/classes.py` lines
78-81): `f"{self.end}{self.seqs}"`.  Note the source sorts `self.seqs`
into a local variable and then discards it — the f-string interpolates
the raw set, whose iteration order is not a function of its contents. -/
def fkmerHashStr (f : FKmerC) : String :=
  toString f.endCol ++ pySetReprStr f.seqs

/-- `FKmer.__eq__`: equality of the two `__hash__` values.  Python's
`hash` on strings is modelled as injective (collisions exist under
CPython's seeded SipHash but are not constructible here), so equality
of hashes is equality of the interpolated strings. -/
def fkmerEqPy (a b : FKmerC) : Bool := fkmerHashStr a == fkmerHashStr b

/-- The core `PrimerPair` (`primalscheme3/core/classes.py`): a forward
and a reverse kmer plus bookkeeping fields; `chrom_name` and
`amplicon_prefix` start as `None`. -/
structure PrimerPairCore where
  fprimer : FKmerC
  rprimer : RKmerC
  ampliconNumber : Int
  pool : Int
  msaIndex : Int
  chromName : Option String
  ampPfx : Option String
deriving DecidableEq, Repr

/-- `PrimerPair.set_pool_number` (`core/classes.py` lines 173-174 and
`primal_digest/classes.py` lines 203-204): the body is
`self.amplicon_number = pool_number`. -/
def set_pool_number (p : PrimerPairCore) (poolNumber : Int) : PrimerPairCore :=
  { p with ampliconNumber := poolNumber }

/-- Concrete MatchDB for the C2 counterexample: one stored record, for
key `"AA"`, in msa 1 at position 5. -/
def dbC2 : MatchDBModel := fun s => if s = "AA" then [(1, 5)] else []

/-- Concrete FKmer for the C2 counterexample: `end = 10`,
`seqs = {"AA"}`, queried for msa 0. -/
def fkC2 : FKmerC := ⟨10, ["AA"]⟩

/-! ## The Scheme solver of `primal_digest/classes.py` -/

/-- `SchemeReturn` (`primal_digest/classes.py` lines 13-27). -/
inductive SchemeReturn where
  | ADDED_OL_PRIMERPAIR
  | ADDED_WALK_PRIMERPAIR
  | ADDED_FIRST_PRIMERPAIR
  | NO_OL_PRIMERPAIR
  | NO_WALK_PRIMERPAIR
  | NO_FIRST_PRIMERPAIR
  | ADDED_BACKTRACKED
  | NO_BACKTRACK
  | ADDED_CIRULAR
  | NO_CIRCULAR
deriving DecidableEq, Repr

/-- The `primal_digest` `PrimerPair`: kmers plus `amplicon_number`,
`pool` and `msa_index` (constructor defaults `-1, -1`). -/
structure PrimerPairD where
  fprimer : FKmerC
  rprimer : RKmerC
  ampliconNumber : Int
  pool : Int
  msaIndex : Int
deriving DecidableEq, Repr

/-- `PrimerPair.__init__(fprimer, rprimer, msa_index)` with the default
`amplicon_number = -1`, `pool = -1`. -/
def mkPrimerPairD (f : FKmerC) (r : RKmerC) (msaIndex : Int) : PrimerPairD :=
  ⟨f, r, -1, -1, msaIndex⟩

/-- `PrimerPair.all_seqs()`: forward sequences then reverse sequences. -/
def allSeqs (pp : PrimerPairD) : List String :=
  pp.fprimer.seqs ++ pp.rprimer.seqs

/-- `FKmer.find_matches(self, matchDB, remove_expected, fuzzy, kmersize,
msa_index)` — a keyword pass-through to `MatchDB.find_fkmer`.  The
parameter order here mirrors the Python signature exactly, because
`PrimerPair.find_matches` calls it **positionally** with its own
argument order. -/
def fkmerFindMatches (db : MatchDBModel) (fk : FKmerC)
    (removeExpected fuzzy : Bool) (kmersize : Nat) (msaIndex : Int) :
    List MatchT :=
  find_fkmer db fk fuzzy kmersize msaIndex removeExpected

/-- `RKmer.find_matches(self, matchDB, remove_expected, fuzzy, kmersize,
msa_index)` — pass-through to `MatchDB.find_rkmer`. -/
def rkmerFindMatches (db : MatchDBModel) (rk : RKmerC)
    (removeExpected fuzzy : Bool) (kmersize : Nat) (msaIndex : Int) :
    List MatchT :=
  find_rkmer db rk fuzzy kmersize msaIndex removeExpected

/-- `PrimerPair.find_matches(self, matchDB, fuzzy, remove_expected,
kmersize)` (`primal_digest/classes.py` lines 206-223).  The body calls
`self.fprimer.find_matches(matchDB, fuzzy, remove_expected, kmersize,
msa_index=...)` **positionally**, and `FKmer.find_matches` declares
`(matchDB, remove_expected, fuzzy, ...)`; the two boolean arguments are
therefore swapped on the way down, exactly as in the source. -/
def ppFindMatches (db : MatchDBModel) (pp : PrimerPairD)
    (fuzzy removeExpected : Bool) (kmersize : Nat) : List MatchT :=
  fkmerFindMatches db pp.fprimer fuzzy removeExpected kmersize pp.msaIndex
    ++ rkmerFindMatches db pp.rprimer fuzzy removeExpected kmersize pp.msaIndex

/-- `detect_new_products` applied to a stored pool set: the same
split-and-compare logic as `detect_new_products`, with the old side a
`Finset` (its value depends only on membership, as in the source, where
both arguments are Python sets). -/
def detectNewProductsFin (newMatches : List MatchT)
    (oldMatches : Finset MatchT) (productSize : Int) : Bool :=
  (newMatches.any (fun fm =>
    decide (fm.2.2 = '+') &&
    decide (∃ orm ∈ oldMatches, orm.2.2 = '-' ∧ fm.1 = orm.1 ∧
      0 < orm.2.1 - fm.2.1 ∧ orm.2.1 - fm.2.1 < productSize)))
  || (newMatches.any (fun rm =>
    decide (rm.2.2 = '-') &&
    decide (∃ ofm ∈ oldMatches, ofm.2.2 = '+' ∧ rm.1 = ofm.1 ∧
      0 < rm.2.1 - ofm.2.1 ∧ rm.2.1 - ofm.2.1 < productSize)))

/-- The configuration slice the solver reads (`cfg[...]` keys). -/
structure SchemeCfg where
  npools : Nat
  minOverlap : Int
  mismatchFuzzy : Bool
  mismatchKmersize : Nat
  mismatchProductSize : Int

/-- The external collaborators of the solver: the MatchDB contents, the
dimer oracle `do_pools_interact_py` (with the `dimerscore` threshold
baked in), the floating-point score sorts of `try_ol_primerpairs` and
`try_backtrack` (scores use `sqrt`; only the resulting order matters,
so the sorted list is supplied by the oracle; `bt_ol_pp_score` is also
absent from `primer_pair_score.py`), and `_mp_pp_inter_free` used by
`try_circular`'s parallel prescreen (`primal_digest/digestion.py` does
not define it in the sources; it is the per-pair dimer check). -/
structure SchemeExt where
  db : MatchDBModel
  interact : List String → List String → Bool
  sortOl : List PrimerPairD → List PrimerPairD
  sortBt : List PrimerPairD → List PrimerPairD
  mpInterFree : PrimerPairD → Bool

/-- The mutable state of `Scheme`: per-pool pair lists, per-pool match
unions (Python sets, hence `Finset`), the `_current_pool` cursor, and
the `_last_pp_added` stack (last element = top). -/
structure SchemeState where
  pools : List (List PrimerPairD)
  schemeMatches : List (Finset MatchT)
  currentPool : Int
  lastAdded : List PrimerPairD
deriving DecidableEq

/-- The `amplicon_number` computed by `add_primer_pair_to_pool`:
`len([pp for sublist in self._pools for pp in sublist if pp.msa_index
== msa_index])`. -/
def countMsaPairs (pools : List (List PrimerPairD)) (msaIndex : Int) : Int :=
  ((pools.flatten.filter (fun q => q.msaIndex = msaIndex)).length : Int)

/-- The field mutation `add_primer_pair_to_pool` performs on the pair
it installs: set `pool`, `msa_index`, and the recomputed
`amplicon_number`. -/
def installPP (pp : PrimerPairD) (pool msaIndex : Int)
    (pools : List (List PrimerPairD)) : PrimerPairD :=
  { pp with pool := pool, msaIndex := msaIndex,
            ampliconNumber := countMsaPairs pools msaIndex }

/-- `Scheme.add_primer_pair_to_pool` (`classes.py` lines 319-347):
set the pair's `pool`/`msa_index`, recompute `amplicon_number` as the
count of same-msa pairs across all pools, add the pair's matches
(`remove_expected=True` at this call site) to the pool's match union,
append the pair, advance `_current_pool` to `next_pool()`, push onto
the stack. -/
def addPrimerPairToPool (ext : SchemeExt) (cfg : SchemeCfg)
    (pp : PrimerPairD) (pool : Int) (msaIndex : Int) (s : SchemeState) :
    SchemeState :=
  let pp' := installPP pp pool msaIndex s.pools
  { pools := pyApply s.pools pool (fun ps => ps ++ [pp'])
    schemeMatches := pyApply s.schemeMatches pool (fun m =>
      m ∪ (ppFindMatches ext.db pp' cfg.mismatchFuzzy true
        cfg.mismatchKmersize).toFinset)
    currentPool := (pool + 1) % (cfg.npools : Int)
    lastAdded := s.lastAdded ++ [pp'] }

/-- `Scheme.remove_last_primer_pair` (`classes.py` lines 298-317): pop
the stack, pop the pair's pool, remove the pair's matches
(`remove_expected=False` at this call site) from the pool's match
union, and move `_current_pool` to the pair's pool.  `none` models the
`IndexError` of popping an empty stack or pool. -/
def removeLastPrimerPair (ext : SchemeExt) (cfg : SchemeCfg)
    (s : SchemeState) : Option (PrimerPairD × SchemeState) :=
  match s.lastAdded.getLast? with
  | none => none
  | some lastPp =>
    match pyGet s.pools lastPp.pool with
    | none => none
    | some poolList =>
      if poolList.isEmpty then none
      else
        some (lastPp,
          { pools := pyApply s.pools lastPp.pool List.dropLast
            schemeMatches := pyApply s.schemeMatches lastPp.pool
              (fun m => m \ (ppFindMatches ext.db lastPp cfg.mismatchFuzzy
                false cfg.mismatchKmersize).toFinset)
            currentPool := lastPp.pool
            lastAdded := s.lastAdded.dropLast })

/-- A Python return value that is either a `SchemeReturn` member or the
bare boolean `False` (`add_first_primer_pair` returns both). -/
inductive PyRet where
  | ret (r : SchemeReturn)
  | pyFalse
deriving DecidableEq, Repr

/-- The first `range(n_pools)` scan of `add_first_primer_pair`:
`some (some i)` = first empty pool, `some none` = no empty pool,
`none` = `IndexError` (pools list shorter than `n_pools`). -/
def firstEmptyPool (pools : List (List PrimerPairD)) :
    List Nat → Option (Option Nat)
  | [] => some none
  | i :: rest =>
    match pools.get? i with
    | none => none
    | some l => if l.isEmpty then some (some i) else firstEmptyPool pools rest

/-- Build `pool_seqs_map` / `index_to_seqs`: for each pool index the
flattened `all_seqs` of its pairs; `none` models the `IndexError` of an
out-of-range pool index. -/
def buildIndexToSeqs (pools : List (List PrimerPairD)) :
    List Int → Option (List (Int × List String))
  | [] => some []
  | i :: rest =>
    match pyGet pools i with
    | none => none
    | some pl =>
      (buildIndexToSeqs pools rest).map
        (fun r => (i, pl.flatMap allSeqs) :: r)

/-- The per-pair pool scan of `add_first_primer_pair` (lines 374-395):
dimer guard against `pool_seqs_map[pool_index]`, mispriming guard
against `self._matches[pool_index]`, then add.  `some (some s')` =
added, `some none` = all pools rejected this pair. -/
def addFirstInner (ext : SchemeExt) (cfg : SchemeCfg) (msaIndex : Int)
    (poolSeqsMap : List (Nat × List String)) (pp : PrimerPairD) :
    List Nat → SchemeState → Option (Option SchemeState)
  | [], _s => some none
  | i :: rest, s =>
    if ext.interact (allSeqs pp) ((poolSeqsMap.lookup i).getD []) then
      addFirstInner ext cfg msaIndex poolSeqsMap pp rest s
    else
      match pyGet s.schemeMatches (i : Int) with
      | none => none
      | some ms =>
        if detectNewProductsFin
            (ppFindMatches ext.db pp cfg.mismatchFuzzy false cfg.mismatchKmersize)
            ms cfg.mismatchProductSize then
          addFirstInner ext cfg msaIndex poolSeqsMap pp rest s
        else
          some (some (addPrimerPairToPool ext cfg pp (i : Int) msaIndex s))

/-- The outer candidate scan of `add_first_primer_pair`. -/
def addFirstOuter (ext : SchemeExt) (cfg : SchemeCfg) (msaIndex : Int)
    (poolSeqsMap : List (Nat × List String)) :
    List PrimerPairD → SchemeState → Option (PyRet × SchemeState)
  | [], s => some (.ret .NO_FIRST_PRIMERPAIR, s)
  | pp :: rest, s =>
    match addFirstInner ext cfg msaIndex poolSeqsMap pp
        (List.range cfg.npools) s with
    | none => none
    | some (some s') => some (.ret .ADDED_FIRST_PRIMERPAIR, s')
    | some none => addFirstOuter ext cfg msaIndex poolSeqsMap rest s

/-- `Scheme.add_first_primer_pair` (`classes.py` lines 349-398): the
empty candidate list short-circuits to the bare boolean `False`; then
the first empty pool takes `primerpairs[0]`; otherwise the guarded
candidate × pool scan runs, falling through to
`NO_FIRST_PRIMERPAIR`. -/
def addFirstPrimerPair (ext : SchemeExt) (cfg : SchemeCfg)
    (primerpairs : List PrimerPairD) (msaIndex : Int) (s : SchemeState) :
    Option (PyRet × SchemeState) :=
  match primerpairs with
  | [] => some (.pyFalse, s)
  | pp0 :: _ =>
    match firstEmptyPool s.pools (List.range cfg.npools) with
    | none => none
    | some (some i) =>
      some (.ret .ADDED_FIRST_PRIMERPAIR,
        addPrimerPairToPool ext cfg pp0 (i : Int) msaIndex s)
    | some none =>
      match buildIndexToSeqs s.pools
          ((List.range cfg.npools).map (fun i : Nat => (i : Int))) with
      | none => none
      | some pm =>
        addFirstOuter ext cfg msaIndex
          (pm.map (fun x => (x.1.toNat, x.2))) primerpairs s

/-- Modelled from the spec: `get_pp_window`
(`primal_digest/get_window.py`, absent from the sources) — the overlap
window of §4.G: pairs with `fprimer.end > fp_end_min`,
`fprimer.end ≤ fp_end_max` and `max(rprimer.ends) ≥ rp_start_min`. -/
def get_pp_window (allPpList : List PrimerPairD)
    (fpEndMin fpEndMax rpStartMin : Int) : List PrimerPairD :=
  allPpList.filter (fun pp =>
    fpEndMin < pp.fprimer.endCol ∧ pp.fprimer.endCol ≤ fpEndMax ∧
    rpStartMin ≤ maxIntList (rkEnds pp.rprimer))

/-- `Scheme.find_ol_primerpairs` (`classes.py` lines 410-421): window
around the current stack top; `none` models the `IndexError` of
`self._last_pp_added[-1]` on an empty stack. -/
def findOlPrimerpairsState (s : SchemeState) (allPpList : List PrimerPairD)
    (minoverlap : Int) : Option (List PrimerPairD) :=
  s.lastAdded.getLast?.map (fun lastPp =>
    get_pp_window allPpList lastPp.fprimer.endCol
      (lastPp.rprimer.start - minoverlap)
      (maxIntList (rkEnds lastPp.rprimer) + minoverlap))

/-- The pool scan inside `try_ol_primerpairs` (lines 461-497): empty
pool → add; same-msa clash with the pool's last pair → skip; dimer
guard → skip; mispriming guard → skip; otherwise add. -/
def tryOlPools (ext : SchemeExt) (cfg : SchemeCfg) (msaIndex : Int)
    (indexToSeqs : List (Int × List String)) (olPp : PrimerPairD) :
    List Int → SchemeState → Option (Option SchemeState)
  | [], _s => some none
  | i :: rest, s =>
    match pyGet s.pools i with
    | none => none
    | some pl =>
      if pl.isEmpty then
        some (some (addPrimerPairToPool ext cfg olPp i msaIndex s))
      else
        match pl.getLast? with
        | none => none
        | some lastInPool =>
          if lastInPool.msaIndex = msaIndex ∧
              maxIntList (rkEnds lastInPool.rprimer) ≥
                minIntList (fkStarts olPp.fprimer) then
            tryOlPools ext cfg msaIndex indexToSeqs olPp rest s
          else if ext.interact (allSeqs olPp)
              ((indexToSeqs.lookup i).getD []) then
            tryOlPools ext cfg msaIndex indexToSeqs olPp rest s
          else
            match pyGet s.schemeMatches i with
            | none => none
            | some ms =>
              if detectNewProductsFin
                  (ppFindMatches ext.db olPp cfg.mismatchFuzzy false
                    cfg.mismatchKmersize) ms cfg.mismatchProductSize then
                tryOlPools ext cfg msaIndex indexToSeqs olPp rest s
              else
                some (some (addPrimerPairToPool ext cfg olPp i msaIndex s))

/-- The candidate scan of `try_ol_primerpairs`. -/
def tryOlList (ext : SchemeExt) (cfg : SchemeCfg) (msaIndex : Int)
    (indexToSeqs : List (Int × List String)) (posPools : List Int) :
    List PrimerPairD → SchemeState → Option (SchemeReturn × SchemeState)
  | [], s => some (.NO_OL_PRIMERPAIR, s)
  | pp :: rest, s =>
    match tryOlPools ext cfg msaIndex indexToSeqs pp posPools s with
    | none => none
    | some (some s') => some (.ADDED_OL_PRIMERPAIR, s')
    | some none => tryOlList ext cfg msaIndex indexToSeqs posPools rest s

/-- `Scheme.try_ol_primerpairs` (`classes.py` lines 423-500): pools
other than the stack top's, rotated from it; the snapshot
`index_to_seqs`; the score-sorted overlap window (float scoring is the
`sortOl` oracle); then the candidate × pool scan. -/
def tryOlPrimerpairs (ext : SchemeExt) (cfg : SchemeCfg)
    (allPpList : List PrimerPairD) (msaIndex : Int) (s : SchemeState) :
    Option (SchemeReturn × SchemeState) :=
  match s.lastAdded.getLast? with
  | none => none
  | some lastPp =>
    let lastPool := lastPp.pool
    let posPoolsIndexes :=
      ((List.range cfg.npools).map
        (fun i => (lastPool + (i : Int)) % (cfg.npools : Int))).filter
        (fun j => j ≠ lastPool)
    match buildIndexToSeqs s.pools posPoolsIndexes with
    | none => none
    | some indexToSeqs =>
      match findOlPrimerpairsState s allPpList cfg.minOverlap with
      | none => none
      | some posOlPp =>
        tryOlList ext cfg msaIndex indexToSeqs posPoolsIndexes
          (ext.sortOl posOlPp) s

/-- The pool scan inside `try_backtrack` (lines 541-586): empty pool →
add and return `ADDED_BACKTRACKED` immediately; otherwise the three
guards, then add-and-try-overlap, removing the replacement again when
no overlap follows.  `some (.inl ...)` = early return,
`some (.inr s)` = fall through with the (possibly mutated) state. -/
def btPoolLoop (ext : SchemeExt) (cfg : SchemeCfg)
    (allPpList : List PrimerPairD) (msaIndex : Int)
    (indexToSeqs : List (Int × List String)) (olPp : PrimerPairD) :
    List Int → SchemeState →
    Option (Sum (SchemeReturn × SchemeState) SchemeState)
  | [], s => some (.inr s)
  | i :: rest, s =>
    match pyGet s.pools i with
    | none => none
    | some pl =>
      if pl.isEmpty then
        some (.inl (.ADDED_BACKTRACKED,
          addPrimerPairToPool ext cfg olPp i msaIndex s))
      else
        match pl.getLast? with
        | none => none
        | some lastInPool =>
          if lastInPool.msaIndex = msaIndex ∧
              maxIntList (rkEnds lastInPool.rprimer) ≥
                minIntList (fkStarts olPp.fprimer) then
            btPoolLoop ext cfg allPpList msaIndex indexToSeqs olPp rest s
          else if ext.interact (allSeqs olPp)
              ((indexToSeqs.lookup i).getD []) then
            btPoolLoop ext cfg allPpList msaIndex indexToSeqs olPp rest s
          else
            match pyGet s.schemeMatches i with
            | none => none
            | some ms =>
              if detectNewProductsFin
                  (ppFindMatches ext.db olPp cfg.mismatchFuzzy false
                    cfg.mismatchKmersize) ms cfg.mismatchProductSize then
                btPoolLoop ext cfg allPpList msaIndex indexToSeqs olPp rest s
              else
                let s1 := addPrimerPairToPool ext cfg olPp i msaIndex s
                match tryOlPrimerpairs ext cfg allPpList msaIndex s1 with
                | none => none
                | some (olRes, s2) =>
                  if olRes = .ADDED_OL_PRIMERPAIR then
                    some (.inl (.ADDED_BACKTRACKED, s2))
                  else
                    match removeLastPrimerPair ext cfg s2 with
                    | none => none
                    | some (_, s3) =>
                      btPoolLoop ext cfg allPpList msaIndex indexToSeqs
                        olPp rest s3

/-- The candidate scan of `try_backtrack`. -/
def btCandLoop (ext : SchemeExt) (cfg : SchemeCfg)
    (allPpList : List PrimerPairD) (msaIndex : Int)
    (indexToSeqs : List (Int × List String)) (posPools : List Int) :
    List PrimerPairD → SchemeState →
    Option (Sum (SchemeReturn × SchemeState) SchemeState)
  | [], s => some (.inr s)
  | olPp :: rest, s =>
    match btPoolLoop ext cfg allPpList msaIndex indexToSeqs olPp
        posPools s with
    | none => none
    | some (.inl r) => some (.inl r)
    | some (.inr s') =>
      btCandLoop ext cfg allPpList msaIndex indexToSeqs posPools rest s'

/-- `Scheme.try_backtrack` (`classes.py` lines 503-590): pop the last
pair; compute the overlap window around the new stack top with
`minoverlap = 1`, dropping the popped pair; sort by backtrack score
(the `sortBt` oracle — `bt_ol_pp_score` is imported but absent from
`primer_pair_score.py`); scan candidates over `[last_pp.pool]`; on
exhaustion re-add the popped pair and return `NO_BACKTRACK`. -/
def tryBacktrack (ext : SchemeExt) (cfg : SchemeCfg)
    (allPpList : List PrimerPairD) (msaIndex : Int) (s : SchemeState) :
    Option (SchemeReturn × SchemeState) :=
  match removeLastPrimerPair ext cfg s with
  | none => none
  | some (lastPp, s1) =>
    match findOlPrimerpairsState s1 allPpList 1 with
    | none => none
    | some window =>
      let posOlPp := ext.sortBt (window.filter (fun pp => pp ≠ lastPp))
      let posPoolsIndexes : List Int := [lastPp.pool]
      match buildIndexToSeqs s1.pools posPoolsIndexes with
      | none => none
      | some indexToSeqs =>
        match btCandLoop ext cfg allPpList msaIndex indexToSeqs
            posPoolsIndexes posOlPp s1 with
        | none => none
        | some (.inl r) => some r
        | some (.inr s2) =>
          some (.NO_BACKTRACK,
            addPrimerPairToPool ext cfg lastPp lastPp.pool msaIndex s2)

/-- The integer sort of `try_circular`:
`iter_free_primer_pairs.sort(key=lambda pp: len(pp.all_seqs()))`
(a stable Python sort; insertion sort is stable). -/
def sortByNumSeqs (l : List PrimerPairD) : List PrimerPairD :=
  List.insertionSort (fun a b => (allSeqs a).length ≤ (allSeqs b).length) l

/-- The slice of an `MSA` object that `try_circular` reads. -/
structure MSAData where
  msaIndex : Int
  fkmers : List FKmerC
  rkmers : List RKmerC

/-- The pool scan inside `try_circular` (lines 727-752): note the two
clash guards index `self._pools[pool_index][-1]` and
`self._pools[pool_index][0]` with no emptiness check — `none` models
the `IndexError` on an empty pool. -/
def circPoolLoop (ext : SchemeExt) (cfg : SchemeCfg) (msaIndex : Int)
    (indexToSeqs : List (Int × List String)) (cPp : PrimerPairD) :
    List Int → SchemeState → Option (Option SchemeState)
  | [], _s => some none
  | i :: rest, s =>
    match pyGet s.pools i with
    | none => none
    | some pl =>
      match pyGet pl (-1) with
      | none => none
      | some lastInPool =>
        if lastInPool.msaIndex = msaIndex ∧
            maxIntList (rkEnds lastInPool.rprimer) ≥
              minIntList (fkStarts cPp.fprimer) then
          circPoolLoop ext cfg msaIndex indexToSeqs cPp rest s
        else
          match pyGet pl 0 with
          | none => none
          | some firstInPool =>
            if firstInPool.msaIndex = msaIndex ∧
                minIntList (fkStarts firstInPool.fprimer) ≤
                  maxIntList (rkEnds cPp.rprimer) then
              circPoolLoop ext cfg msaIndex indexToSeqs cPp rest s
            else if ext.interact (allSeqs cPp)
                ((indexToSeqs.lookup i).getD []) then
              circPoolLoop ext cfg msaIndex indexToSeqs cPp rest s
            else
              some (some (addPrimerPairToPool ext cfg cPp i msaIndex s))

/-- The candidate scan of `try_circular`. -/
def circCandLoop (ext : SchemeExt) (cfg : SchemeCfg) (msaIndex : Int)
    (indexToSeqs : List (Int × List String)) (posPools : List Int) :
    List PrimerPairD → SchemeState → Option (SchemeReturn × SchemeState)
  | [], s => some (.NO_CIRCULAR, s)
  | cPp :: rest, s =>
    match circPoolLoop ext cfg msaIndex indexToSeqs cPp posPools s with
    | none => none
    | some (some s') => some (.ADDED_CIRULAR, s')
    | some none =>
      circCandLoop ext cfg msaIndex indexToSeqs posPools rest s

/-- `Scheme.try_circular` (`classes.py` lines 669-755): collect the
kmers within 200 columns of the last amplicon's reverse anchor and the
first amplicon's forward anchor, cross them into candidate pairs,
dimer-prescreen (the `mpInterFree` oracle stands for the
multiprocessing `_mp_pp_inter_free` map, modelled order-preserving),
sort by degeneracy, and scan pools rotated from the last pair's
pool. -/
def tryCircular (ext : SchemeExt) (cfg : SchemeCfg) (msa : MSAData)
    (s : SchemeState) : Option (SchemeReturn × SchemeState) :=
  match s.lastAdded.head?, s.lastAdded.getLast? with
  | some firstPp, some lastPp =>
    let lastPool := lastPp.pool
    let posFkmers := msa.fkmers.filter (fun fk =>
      fk.endCol < lastPp.rprimer.start ∧
      fk.endCol > lastPp.rprimer.start - 200)
    let posRkmers := msa.rkmers.filter (fun rk =>
      rk.start > firstPp.fprimer.endCol ∧
      rk.start < firstPp.fprimer.endCol + 200)
    let nonCheckedPp := posFkmers.flatMap (fun fk =>
      posRkmers.map (fun rk => mkPrimerPairD fk rk msa.msaIndex))
    let interFreePrimerPairs :=
      nonCheckedPp.filter (fun pp => ¬ ext.mpInterFree pp)
    let sortedPp := sortByNumSeqs interFreePrimerPairs
    let posPoolsIndexes := (List.range cfg.npools).map
      (fun i => (lastPool + (i : Int)) % (cfg.npools : Int))
    match buildIndexToSeqs s.pools posPoolsIndexes with
    | none => none
    | some indexToSeqs =>
      circCandLoop ext cfg msa.msaIndex indexToSeqs posPoolsIndexes
        sortedPp s
  | _, _ => none

/-! ## Digestion (`primalscheme3/core/digestion.py`) -/

/-- The digestion exception classes of `primalscheme3/core/errors.py`
(the module itself is one of the files absent from the sources; the
class names are fixed by the imports in `core/digestion.py`). -/
inductive DigestError where
  | walksOut
  | walksTooFar
  | containsInvalidBase
  | customRecursionError
  | gapOnSetBase
deriving DecidableEq, Repr

/-- Modelled from the spec: the concrete bases of one IUPAC code
(§4.A `expand_ambs`); `none` on `N`, gap or unknown symbol. -/
def ambBases (c : Char) : Option (List Char) :=
  if c = 'A' then some ['A']
  else if c = 'C' then some ['C']
  else if c = 'G' then some ['G']
  else if c = 'T' then some ['T']
  else if c = 'M' then some ['A', 'C']
  else if c = 'R' then some ['A', 'G']
  else if c = 'W' then some ['A', 'T']
  else if c = 'S' then some ['C', 'G']
  else if c = 'Y' then some ['C', 'T']
  else if c = 'K' then some ['G', 'T']
  else if c = 'V' then some ['A', 'C', 'G']
  else if c = 'H' then some ['A', 'C', 'T']
  else if c = 'D' then some ['A', 'G', 'T']
  else if c = 'B' then some ['C', 'G', 'T']
  else none

/-- Cartesian expansion of one character list. -/
def expandChars : List Char → Option (List (List Char))
  | [] => some [[]]
  | c :: cs => do
    let bs ← ambBases c
    let rest ← expandChars cs
    some (bs.flatMap (fun b => rest.map (fun r => b :: r)))

/-- Modelled from the spec: `expand_ambs(seqs)`
(`core/seq_functions.py`, absent from the sources) — the set of fully
A/C/G/T strings obtained by replacing every IUPAC ambiguity code with
each of its concrete bases, `none` on `N` or an unknown symbol
(§4.A). -/
def expandAmbs (seqs : List String) : Option (List String) := do
  let exp ← seqs.mapM (fun s =>
    (expandChars s.data).map (fun ls => ls.map (fun cs => (⟨cs⟩ : String))))
  some (dedupFO exp.flatten)

/-- Modelled from the spec: `get_most_common_base(array, col)`
(`core/seq_functions.py`, absent from the sources) — the majority
non-gap, non-empty base of an MSA column, ties broken by the fixed
order `A<C<G<T<…` (§4.A). -/
def getMostCommonBase (array : List (List String)) (colIndex : Nat) : String :=
  let column := array.map (fun row => row.getD colIndex "")
  let valid := column.filter (fun c => c ≠ "" ∧ c ≠ "-")
  ((dedupFO valid).foldl (fun best c =>
    match best with
    | none => some c
    | some b =>
      if valid.count c > valid.count b ∨
          (valid.count c = valid.count b ∧ strLeB c.data b.data = true ∧ c ≠ b)
      then some c else some b) none).getD ""

/-- `wrap_walk` (`core/digestion.py` lines 334-360): a caught
`CustomErrors` exception becomes a list element; a success list is
spliced. -/
def wrapWalkResult :
    Except DigestError (List (String ⊕ DigestError)) →
    List (String ⊕ DigestError)
  | .error e => [.inr e]
  | .ok l => l

/-- `walk_left` (`core/digestion.py` lines 253-331).  The guard order
is the source's: the walks-out guard (`col_index_left <= 0 or
col_index_right <= 0`) comes **before** the Tm guard.  The Tm oracle
`calc_tm(...) >= config.primer_tm_min` (`core/thermo.py`, a primer3
wrapper outside the verified sources) is the Boolean parameter
`tmReached`.  The cell holds a 1-character string, `"-"` or `""`. -/
def walk_left (tmReached : String → Bool) (primerMaxWalk : Int)
    (array : List (List String)) (colIndexRight : Nat) :
    Nat → Nat → String → Except DigestError (List (String ⊕ DigestError))
  | 0, _, _ => .error .walksOut
  | colLeft + 1, rowIndex, seqStr =>
    if colIndexRight = 0 then .error .walksOut
    else if tmReached seqStr then .ok [.inl seqStr]
    else if (colIndexRight : Int) - (colLeft + 1 : Nat) ≥ primerMaxWalk then
      .error .walksTooFar
    else
      let newBase0 := (array.getD rowIndex []).getD colLeft ""
      let newBase :=
        if newBase0 = "" then getMostCommonBase array colLeft else newBase0
      let newString := (newBase ++ seqStr).replace "-" ""
      if newString.contains 'N' then .error .containsInvalidBase
      else
        match expandAmbs [newString] with
        | none => .error .containsInvalidBase
        | some expNewString =>
          .ok (expNewString.flatMap (fun expStr =>
            wrapWalkResult
              (walk_left tmReached primerMaxWalk array colIndexRight
                colLeft rowIndex expStr)))

/-- The all-pass Tm oracle used by the C5 counterexample. -/
def tmAlways : String → Bool := fun _ => true

/-- Modelled from the spec: `get_r_window_FAST2`
(`core/get_window.py`, absent from the sources) — the RKmers whose
`start` lies in the closed window `[start, end]` (§4.E: binary-search
the RKmer list for those with `start ∈ [min(f.starts)+amplicon_size_min,
min(f.starts)+amplicon_size_max]`). -/
def get_r_window_FAST2 (kmers : List RKmerC) (start stop : Int) :
    List RKmerC :=
  kmers.filter (fun rk => start ≤ rk.start ∧ rk.start ≤ stop)

/-- `PrimerPair.__init__` of the core classes (defaults `-1, -1`,
`chrom_name = None`, `amplicon_prefix = None`). -/
def mkPrimerPairCore (f : FKmerC) (r : RKmerC) (msaIndex : Int) :
    PrimerPairCore :=
  ⟨f, r, -1, -1, msaIndex, none, none⟩

/-- The sort order of `generate_valid_primerpairs`:
`key=lambda pp: (pp.fprimer.end, -pp.rprimer.start)`. -/
def ppSortLe (a b : PrimerPairCore) : Prop :=
  a.fprimer.endCol < b.fprimer.endCol ∨
    (a.fprimer.endCol = b.fprimer.endCol ∧
      -a.rprimer.start ≤ -b.rprimer.start)

instance ppSortLe.decRel : DecidableRel ppSortLe := fun a b => by
  unfold ppSortLe; infer_instance

/-- `generate_valid_primerpairs` (`core/digestion.py` lines 125-171):
for each FKmer, the RKmers in the amplicon-size window of
`min(fkmer.starts())`; keep the pairs the dimer oracle
(`which_kmers_pools_interact`, external) clears; sort by
`(fprimer.end, -rprimer.start)` (a stable Python sort; insertion sort
is stable). -/
def generate_valid_primerpairs (interactOracle : FKmerC → RKmerC → Bool)
    (fkmers : List FKmerC) (rkmers : List RKmerC)
    (ampliconSizeMin ampliconSizeMax : Int) (msaIndex : Int) :
    List PrimerPairCore :=
  let checkedPp := fkmers.flatMap (fun fkmer =>
    let fkmerStart := minIntList (fkStarts fkmer)
    (get_r_window_FAST2 rkmers (fkmerStart + ampliconSizeMin)
        (fkmerStart + ampliconSizeMax)).filterMap
      (fun rkmer =>
        if interactOracle fkmer rkmer then none
        else some (mkPrimerPairCore fkmer rkmer msaIndex)))
  List.insertionSort ppSortLe checkedPp

/-- The concrete FKmer of the C3 counterexample (`end = 3`,
`seqs = {"AAA"}`, so `min(starts) = 0`). -/
def fkC3 : FKmerC := ⟨3, ["AAA"]⟩

/-- The concrete RKmer of the C3 counterexample (`start = 5`,
`seqs = {"TTTT"}`, so `max(ends) = 9`). -/
def rkC3 : RKmerC := ⟨5, ["TTTT"]⟩

/-- A trivial external bundle: empty MatchDB, no dimer interactions,
identity sorts. -/
def extTriv : SchemeExt :=
  { db := fun _ => []
    interact := fun _ _ => false
    sortOl := id
    sortBt := id
    mpInterFree := fun _ => false }

/-- Configuration for the C10 witness: one pool. -/
def cfgC10 : SchemeCfg := ⟨1, 0, false, 2, 2000⟩

/-- A fresh one-pool scheme state (as `Scheme.__init__` builds). -/
def sC10 : SchemeState := ⟨[[]], [∅], 0, []⟩

/-- A candidate pair for the C10 witness. -/
def ppC10 : PrimerPairD := mkPrimerPairD ⟨2, ["AA"]⟩ ⟨10, ["TT"]⟩ 0

/-- Configuration for the C9 scenario: two pools. -/
def cfgC9 : SchemeCfg := ⟨2, 0, false, 2, 2000⟩

/-- The single placed pair of the C9 scenario (pool 0, msa 0). -/
def p0C9 : PrimerPairD := ⟨⟨10, ["AA"]⟩, ⟨150, ["TT"]⟩, 0, 0, 0⟩

/-- C9 scheme state: pool 0 holds the placed pair, pool 1 is empty. -/
def sC9 : SchemeState := ⟨[[p0C9], []], [∅, ∅], 1, [p0C9]⟩

/-- C9 msa slice: one forward kmer in the last amplicon's 3' zone and
one reverse kmer in the first amplicon's 5' zone, so that a circular
candidate pair exists. -/
def msaC9 : MSAData := ⟨0, [⟨100, ["AA"]⟩], [⟨50, ["TT"]⟩]⟩

/-- The circular candidate pair the C9 scenario produces. -/
def cPpC9 : PrimerPairD := mkPrimerPairD ⟨100, ["AA"]⟩ ⟨50, ["TT"]⟩ 0

/-- MatchDB for the C1 counterexample: one stored record for key
`"CG"` (msa 0, position 100).  `"CG"` is a single-substitution
neighbour of the candidate's 3' kmer `"CC"` but of none of the kmers of
the installed pairs. -/
def dbC1 : MatchDBModel := fun s => if s = "CG" then [(0, 100)] else []

/-- External bundle for the C1 counterexample. -/
def extC1 : SchemeExt :=
  { db := dbC1
    interact := fun _ _ => false
    sortOl := id
    sortBt := id
    mpInterFree := fun _ => false }

/-- Configuration for the C1 counterexample: two pools, non-fuzzy
mismatch checking, kmersize 2. -/
def cfgC1 : SchemeCfg := ⟨2, 5, false, 2, 2000⟩

/-- C1: a pair of another msa sitting at the bottom of pool 0. -/
def pXC1 : PrimerPairD := ⟨⟨5, ["AA"]⟩, ⟨8, ["TT"]⟩, 0, 0, 1⟩

/-- C1: the previous pair of msa 0 (pool 1). -/
def pAC1 : PrimerPairD := ⟨⟨10, ["AA"]⟩, ⟨30, ["TT"]⟩, 0, 1, 0⟩

/-- C1: the last-added pair of msa 0 (pool 0), the one `try_backtrack`
pops and re-installs. -/
def pBC1 : PrimerPairD := ⟨⟨40, ["AA"]⟩, ⟨60, ["TT"]⟩, 1, 0, 0⟩

/-- C1: the replacement candidate; it lies in the overlap window of
`pAC1`, passes every guard, gets installed, finds no follow-up overlap
and is removed again — leaving its fuzzy matches behind. -/
def cPpC1 : PrimerPairD := mkPrimerPairD ⟨20, ["CC"]⟩ ⟨50, ["TT"]⟩ 0

/-- C1 pre-call scheme state (as the solver would have built it:
match unions of the installed pairs, cursor one past the last added
pool). -/
def sPreC1 : SchemeState :=
  ⟨[[pXC1, pBC1], [pAC1]], [∅, ∅], 1, [pXC1, pAC1, pBC1]⟩

/-- C1 post-call scheme state: pools, stack and cursor as before, but
pool 0's match union now holds the rejected candidate's matches
`(0, 100, '+')` and `(0, 100, '-')`. -/
def sPostC1 : SchemeState :=
  ⟨[[pXC1, pBC1], [pAC1]],
   [({((0 : Int), (100 : Int), '+'), ((0 : Int), (100 : Int), '-')} :
      Finset MatchT), ∅],
   1, [pXC1, pAC1, pBC1]⟩

/-! ## BED serialization and parsing
(`primalscheme3/core/classes.py` `__str__`/`to_bed`,
`primalscheme3/core/bedfiles.py` `BedLine` / `read_in_bedprimerpairs`) -/

/-- Python `f"{x}"` for an optional string (`None` prints `"None"`). -/
def pyOptStr : Option String → String
  | some s => s
  | none => "None"

/-- Python `str` of a natural number (decimal). -/
def pyNatRepr (n : Nat) : String :=
  if n = 0 then "0"
  else ⟨((Nat.digits 10 n).map (fun d => Char.ofNat (48 + d))).reverse⟩

/-- Python `str` of an integer. -/
def pyIntRepr (i : Int) : String :=
  if i < 0 then "-" ++ pyNatRepr (-i).toNat else pyNatRepr i.toNat

/-- Decimal digit-string parser (the digits of Python `int(s)`). -/
def parseDigits (cs : List Char) : Option Nat :=
  if cs = [] then none
  else if cs.all (fun c => 48 ≤ c.toNat ∧ c.toNat ≤ 57) then
    some (cs.foldl (fun acc c => acc * 10 + (c.toNat - 48)) 0)
  else none

/-- Python `int(s)` on a clean (already stripped) field: optional
leading `-`, then decimal digits; `none` models `ValueError`. -/
def pyStrToInt (s : String) : Option Int :=
  match s.data with
  | [] => none
  | c :: rest =>
    if c = '-' then (parseDigits rest).map (fun n => -(n : Int))
    else (parseDigits (c :: rest)).map (fun n => (n : Int))

/-- The whitespace characters Python `str.split()` splits on (the ones
that can occur in this pipeline). -/
def isWsChar (c : Char) : Bool :=
  c = ' ' ∨ c = '\t' ∨ c = '\n' ∨ c = '\r'

/-- Worker for `splitWs` with the current (reversed) token. -/
def splitWsAux : List Char → List Char → List (List Char)
  | [], acc => if acc = [] then [] else [acc.reverse]
  | c :: rest, acc =>
    if isWsChar c then
      (if acc = [] then splitWsAux rest [] else acc.reverse :: splitWsAux rest [])
    else splitWsAux rest (c :: acc)

/-- Python `s.strip().split()`: maximal runs of non-whitespace. -/
def splitWs (cs : List Char) : List (List Char) := splitWsAux cs []

/-- Worker for `splitNl`. -/
def splitNlAux : List Char → List Char → List (List Char)
  | [], acc => if acc = [] then [] else [acc.reverse]
  | c :: rest, acc =>
    if c = '\n' then acc.reverse :: splitNlAux rest []
    else splitNlAux rest (c :: acc)

/-- The line decomposition of `file.readlines()` (line bodies, without
the terminators; a final empty remainder is not a line). -/
def splitNl (cs : List Char) : List (List Char) := splitNlAux cs []

/-- Python `s.split(sep)` for a single-character separator (always at
least one piece; empty pieces preserved). -/
def splitOnChar (sep : Char) : List Char → List Char → List (List Char)
  | [], acc => [acc.reverse]
  | c :: rest, acc =>
    if c = sep then acc.reverse :: splitOnChar sep rest []
    else splitOnChar sep rest (c :: acc)

/-- One primer row of a BED file, as the 7-tuple
`(chrom, start, end, name, pool, strand, sequence)` the round-trip
claim keys on (`pool1` is the printed, 1-based pool column). -/
structure BedRow where
  ref : String
  startPos : Int
  stopPos : Int
  primername : String
  pool1 : Int
  direction : String
  sequence : String
deriving DecidableEq, Repr

/-- The reconstructed pair data of `BedPrimerPair`
(`core/bedfiles.py` lines 23-61): chrom, amplicon prefix, amplicon
number, 0-based pool, and the two kmers. -/
structure BedPairRec where
  chromname : String
  ampPfx : String
  ampliconNumber : Int
  pool : Int
  fkEnd : Int
  fkSeqs : List String
  rkStart : Int
  rkSeqs : List String
deriving DecidableEq, Repr

/-- The row list a pair's data serializes to: the sorted forward
sequences as `LEFT` rows numbered from 1, then the sorted reverse
sequences as `RIGHT` rows (`FKmer.__str__`/`RKmer.__str__` via
`PrimerPair.__str__`, `core/classes.py` lines 22-28, 86-92,
252-261). -/
def rowsOfRec (q : BedPairRec) : List BedRow :=
  let ampPre := q.ampPfx ++ "_" ++ pyIntRepr q.ampliconNumber
  (List.enumFrom 1 (pySorted q.fkSeqs)).map (fun iseq =>
    ⟨q.chromname, q.fkEnd - (iseq.2.length : Int), q.fkEnd,
     ampPre ++ "_LEFT_" ++ pyIntRepr (iseq.1 : Int), q.pool + 1, "+", iseq.2⟩)
  ++ (List.enumFrom 1 (pySorted q.rkSeqs)).map (fun iseq =>
    ⟨q.chromname, q.rkStart, q.rkStart + (iseq.2.length : Int),
     ampPre ++ "_RIGHT_" ++ pyIntRepr (iseq.1 : Int), q.pool + 1, "-", iseq.2⟩)

/-- The pair data a finished core `PrimerPair` carries into
serialization (`f"{self.chrom_name}"` / `f"{self.amplicon_prefix}"`
stringify `None` as `"None"`). -/
def recOfPair (p : PrimerPairCore) : BedPairRec :=
  ⟨pyOptStr p.chromName, pyOptStr p.ampPfx, p.ampliconNumber, p.pool,
   p.fprimer.endCol, p.fprimer.seqs, p.rprimer.start, p.rprimer.seqs⟩

/-- `PrimerPair.to_bed()` as structured rows. -/
def rowsOfPair (p : PrimerPairCore) : List BedRow :=
  rowsOfRec (recOfPair p)

/-- Join field strings with a separator (Python's
`"\t".join(fields)` shape, as the f-string interpolation realises
it). -/
def joinSep (sep : List Char) : List (List Char) → List Char
  | [] => []
  | [f] => f
  | f :: fs => f ++ sep ++ joinSep sep fs

/-- Render one BED row: the seven fields joined by tabs (each line is
terminated by `"\n"` in `schemeToBed`). -/
def renderRow (r : BedRow) : List Char :=
  joinSep ['\t']
    [r.ref.data, (pyIntRepr r.startPos).data, (pyIntRepr r.stopPos).data,
     r.primername.data, (pyIntRepr r.pool1).data, r.direction.data,
     r.sequence.data]

/-- Serialize a scheme: every pair's rows, each line ending in
`"\n"` (the concatenation of the pairs' `to_bed()` strings). -/
def schemeToBed (pairs : List PrimerPairCore) : List Char :=
  ((pairs.flatMap rowsOfPair).map (fun r => renderRow r ++ ['\n'])).flatten

/-- A parsed `BedLine` (`core/bedfiles.py` lines 64-110): the seven
columns, `pool` stored 0-based, and `amplicon_number` parsed from the
second `_`-separated component of the name.  `none` models the
`IndexError`/`ValueError` of a malformed line. -/
structure BedLineP where
  ref : String
  startPos : Int
  stopPos : Int
  primername : String
  pool : Int
  direction : String
  sequence : String
  ampliconNumber : Int
deriving DecidableEq, Repr

/-- `BedLine.__init__` on the split fields of one line. -/
def parseBedLine (fields : List (List Char)) : Option BedLineP :=
  match fields with
  | f0 :: f1 :: f2 :: f3 :: f4 :: f5 :: f6 :: _ => do
    let st ← pyStrToInt ⟨f1⟩
    let en ← pyStrToInt ⟨f2⟩
    let pl ← pyStrToInt ⟨f4⟩
    let ampStr ← (splitOnChar '_' f3 []).get? 1
    let amp ← pyStrToInt ⟨ampStr⟩
    some ⟨⟨f0⟩, st, en, ⟨f3⟩, pl - 1, ⟨f5⟩, ⟨f6⟩, amp⟩
  | _ => none

/-- The line-reading phase of `read_in_bedprimerpairs`. -/
def parseBedLines (text : List Char) : Option (List BedLineP) :=
  (splitNl text).mapM (fun line => parseBedLine (splitWs line))

/-- The per-amplicon reconstruction inside `read_in_bedprimerpairs`
(lines 149-178): first `+` line's `end` with the set of `+` sequences,
first `-` line's `start` with the set of `-` sequences, the first
line's pool. -/
def buildAmpPair (ref : String) (ampPfx : String) (amp : Int)
    (ampLines : List BedLineP) : Option BedPairRec := do
  let firstAmp ← ampLines.head?
  let plusLines := ampLines.filter (fun b => b.direction = "+")
  let minusLines := ampLines.filter (fun b => b.direction = "-")
  let fkEnd ← (plusLines.map (fun b => b.stopPos)).head?
  let rkStart ← (minusLines.map (fun b => b.startPos)).head?
  some ⟨ref, ampPfx, amp, firstAmp.pool, fkEnd,
    dedupFO (plusLines.map (fun b => b.sequence)), rkStart,
    dedupFO (minusLines.map (fun b => b.sequence))⟩

/-- The grouping phase of `read_in_bedprimerpairs`: group the lines by
reference (the Python set iterations are modelled in first-occurrence
order; the final sort and the claim's multiset comparison make the
order immaterial), take the amplicon prefix from the reference group's
first line, then group by amplicon number. -/
def reconstructPairs (bls : List BedLineP) : Option (List BedPairRec) := do
  let groups ← (dedupFO (bls.map (fun b => b.ref))).mapM (fun ref => do
    let refBls := bls.filter (fun b => b.ref = ref)
    let first ← refBls.head?
    let ampPfx ← (splitOnChar '_' first.primername.data []).head?
    (dedupFO (refBls.map (fun b => b.ampliconNumber))).mapM (fun amp =>
      buildAmpPair ref ⟨ampPfx⟩ amp
        (refBls.filter (fun b => b.ampliconNumber = amp))))
  some groups.flatten

/-- The final sort of `read_in_bedprimerpairs`:
`key=lambda x: (x.chromname, x.amplicon_number)`. -/
def pairRecLe (a b : BedPairRec) : Prop :=
  (strLe a.chromname b.chromname ∧ a.chromname ≠ b.chromname) ∨
    (a.chromname = b.chromname ∧ a.ampliconNumber ≤ b.ampliconNumber)

instance pairRecLe.decRel : DecidableRel pairRecLe := fun a b => by
  unfold pairRecLe; infer_instance

/-- `read_in_bedprimerpairs` (`core/bedfiles.py` lines 131-181) on the
file's text. -/
def read_in_bedprimerpairs (text : List Char) : Option (List BedPairRec) := do
  let bls ← parseBedLines text
  let pairs ← reconstructPairs bls
  some (List.insertionSort pairRecLe pairs)

/-- DNA bases (the sequence strings of finished primers). -/
def isDnaChar (c : Char) : Bool :=
  c = 'A' ∨ c = 'C' ∨ c = 'G' ∨ c = 'T'

/-- Well-formedness of one finished pair: chrom name and
underscore-free amplicon prefix present and printable, non-empty
duplicate-free A/C/G/T sequence sets. -/
def pairWF (p : PrimerPairCore) : Bool :=
  (match p.chromName with
   | none => false
   | some c => !c.data.isEmpty && c.data.all (fun ch => !(isWsChar ch))) &&
  (match p.ampPfx with
   | none => false
   | some f => !f.data.isEmpty &&
       f.data.all (fun ch => !(isWsChar ch) && ch ≠ '_')) &&
  !p.fprimer.seqs.isEmpty && !p.rprimer.seqs.isEmpty &&
  p.fprimer.seqs.all (fun s => !s.data.isEmpty && s.data.all isDnaChar) &&
  p.rprimer.seqs.all (fun s => !s.data.isEmpty && s.data.all isDnaChar) &&
  decide p.fprimer.seqs.Nodup && decide p.rprimer.seqs.Nodup

/-- Well-formedness of a finished scheme: every pair well-formed,
`(chrom, amplicon_number)` identifies a pair (the solver numbers
amplicons per msa), and the amplicon prefix is a function of the
reference (one prefix per msa). -/
def schemeBedWF (scheme : List PrimerPairCore) : Bool :=
  scheme.all pairWF &&
  decide ((scheme.map (fun p =>
    (pyOptStr p.chromName, p.ampliconNumber))).Nodup) &&
  decide (∀ p ∈ scheme, ∀ q ∈ scheme,
    p.chromName = q.chromName → p.ampPfx = q.ampPfx)

/-- One printed row as `parseBedLine` recovers it, tagged with the
amplicon number encoded in its name. -/
def lineOfRowAmp (r : BedRow) (amp : Int) : BedLineP :=
  ⟨r.ref, r.startPos, r.stopPos, r.primername, r.pool1 - 1, r.direction,
   r.sequence, amp⟩

/-- The parsed lines a pair record's printed rows yield. -/
def bedLinesOfRec (q : BedPairRec) : List BedLineP :=
  (rowsOfRec q).map (fun r => lineOfRowAmp r q.ampliconNumber)

/-- The parsed lines a finished pair's printed rows yield. -/
def bedLinesOfPair (p : PrimerPairCore) : List BedLineP :=
  bedLinesOfRec (recOfPair p)

/-- The pair record `read_in_bedprimerpairs` reconstructs for a
finished pair: the same data with each kmer's sequence list sorted. -/
def normRec (p : PrimerPairCore) : BedPairRec :=
  ⟨pyOptStr p.chromName, pyOptStr p.ampPfx, p.ampliconNumber, p.pool,
   p.fprimer.endCol, pySorted p.fprimer.seqs,
   p.rprimer.start, pySorted p.rprimer.seqs⟩

/-- A placeholder line (for total head-of-group functions). -/
def defaultLine : BedLineP := ⟨"", 0, 0, "", 0, "", "", 0⟩

/-- A placeholder pair record. -/
def defaultRec : BedPairRec := ⟨"", "", 0, 0, 0, [], 0, []⟩

/-- The per-reference line group of the reconstruction. -/
def refLinesOf (bls : List BedLineP) (r : String) : List BedLineP :=
  bls.filter (fun b => b.ref = r)

/-- The amplicon prefix the reconstruction reads off a reference
group's first line (as a total function). -/
def groupPfx (bls : List BedLineP) (r : String) : List Char :=
  ((splitOnChar '_'
    (((refLinesOf bls r).head?.getD defaultLine).primername.data) []).head?).getD []

/-- The amplicon numbers of a reference group, in first-occurrence
order. -/
def groupAmps (bls : List BedLineP) (r : String) : List Int :=
  dedupFO ((refLinesOf bls r).map (fun b => b.ampliconNumber))

/-- A two-amplicon single-reference scheme (distinct amplicon
numbers), exercising the BED round trip. -/
def demoC7a : PrimerPairCore :=
  ⟨⟨30, ["ACGT", "ACG"]⟩, ⟨100, ["TTAA"]⟩, 0, 0, 0, some "chr1",
   some "scheme"⟩

/-- Second pair of the demo scheme. -/
def demoC7b : PrimerPairCore :=
  ⟨⟨90, ["GGGG"]⟩, ⟨160, ["CCTT", "CCTA"]⟩, 1, 1, 0, some "chr1",
   some "scheme"⟩

/-- The demo scheme. -/
def demoC7 : List PrimerPairCore := [demoC7a, demoC7b]

/-- A pair clashing with `cexC7b` on `(chrom, amplicon_number)`
(different pools), as the unguarded claim quantification allows. -/
def cexC7a : PrimerPairCore :=
  ⟨⟨30, ["ACGT"]⟩, ⟨100, ["TTAA"]⟩, 0, 0, 0, some "chr1", some "scheme"⟩

/-- Second pair of the clashing scheme: same reference and amplicon
number 0, pool 1. -/
def cexC7b : PrimerPairCore :=
  ⟨⟨90, ["GGGG"]⟩, ⟨160, ["CCTT"]⟩, 0, 1, 0, some "chr1", some "scheme"⟩

/-- The pair record the reconstruction builds for one
(reference, amplicon) group (as a total function). -/
def groupBuild (bls : List BedLineP) (r : String) (a : Int) : BedPairRec :=
  (buildAmpPair r ⟨groupPfx bls r⟩ a
    ((refLinesOf bls r).filter (fun b => b.ampliconNumber = a))).getD defaultRec

/-! ## Theorems -/

theorem char_eq_of_toNat_eq {a b : Char} (h : a.toNat = b.toNat) : a = b := by
  have hv : a.val = b.val := UInt32.toNat.inj h
  exact Char.eq_of_val_eq hv

theorem strLeB_total :
    ∀ as bs : List Char, strLeB as bs = true ∨ strLeB bs as = true := by
  intro as
  induction as with
  | nil => intro bs; left; rfl
  | cons a as ih =>
    intro bs
    cases bs with
    | nil => right; rfl
    | cons b bs =>
      simp only [strLeB]
      rcases Nat.lt_trichotomy a.toNat b.toNat with h | h | h
      · left; simp [h]
      · have h1 : ¬ a.toNat < b.toNat := by omega
        have h2 : ¬ b.toNat < a.toNat := by omega
        simpa [h1, h2] using ih bs
      · right; simp [h]

theorem strLeB_trans : ∀ as bs cs : List Char,
    strLeB as bs = true → strLeB bs cs = true → strLeB as cs = true := by
  intro as
  induction as with
  | nil => intro bs cs _ _; rfl
  | cons a as ih =>
    intro bs cs h1 h2
    cases bs with
    | nil => simp [strLeB] at h1
    | cons b bs =>
      cases cs with
      | nil => simp [strLeB] at h2
      | cons c cs =>
        simp only [strLeB] at h1 h2 ⊢
        by_cases hab : a.toNat < b.toNat <;> by_cases hbc : b.toNat < c.toNat
        · simp [show a.toNat < c.toNat by omega]
        · have hcb : ¬ c.toNat < b.toNat := by
            by_contra hc
            simp [hbc, hc] at h2
          have : a.toNat < c.toNat := by omega
          simp [this]
        · have hba : ¬ b.toNat < a.toNat := by
            by_contra hc
            simp [hab, hc] at h1
          simp [show a.toNat < c.toNat by omega]
        · have hba : ¬ b.toNat < a.toNat := by
            by_contra hc
            simp [hab, hc] at h1
          have hcb : ¬ c.toNat < b.toNat := by
            by_contra hc
            simp [hbc, hc] at h2
          have hac : ¬ a.toNat < c.toNat := by omega
          have hca : ¬ c.toNat < a.toNat := by omega
          simp only [hac, hca, if_false, ite_self]
          simp only [hab, hba, if_false] at h1
          simp only [hbc, hcb, if_false] at h2
          simp [ih bs cs h1 h2]

theorem strLeB_antisymm : ∀ as bs : List Char,
    strLeB as bs = true → strLeB bs as = true → as = bs := by
  intro as
  induction as with
  | nil =>
    intro bs _ h2
    cases bs with
    | nil => rfl
    | cons b bs => simp [strLeB] at h2
  | cons a as ih =>
    intro bs h1 h2
    cases bs with
    | nil => simp [strLeB] at h1
    | cons b bs =>
      simp only [strLeB] at h1 h2
      by_cases hab : a.toNat < b.toNat
      · have : ¬ b.toNat < a.toNat := by omega
        simp [hab, this] at h2
      · by_cases hba : b.toNat < a.toNat
        · simp [hab, hba] at h1
        · have hmm : a.toNat = b.toNat := by omega
          simp only [hab, hba, if_false] at h1 h2
          rw [char_eq_of_toNat_eq hmm, ih bs h1 h2]

theorem strLe_isTotal : IsTotal String strLe :=
  ⟨fun a b => strLeB_total a.data b.data⟩

theorem strLe_isTrans : IsTrans String strLe :=
  ⟨fun a b c => strLeB_trans a.data b.data c.data⟩

theorem strLe_isAntisymm : IsAntisymm String strLe :=
  ⟨fun a b h1 h2 => by
    cases a; cases b
    exact congrArg String.mk (strLeB_antisymm _ _ h1 h2)⟩

theorem pySorted_perm (l : List String) : (pySorted l).Perm l :=
  List.perm_insertionSort strLe l

theorem pySorted_sorted (l : List String) : List.Sorted strLe (pySorted l) := by
  haveI := strLe_isTotal
  haveI := strLe_isTrans
  exact List.sorted_insertionSort strLe l

theorem pySorted_eq_of_perm {l l' : List String} (h : l.Perm l') :
    pySorted l = pySorted l' := by
  haveI := strLe_isAntisymm
  apply List.eq_of_perm_of_sorted (r := strLe)
  · exact ((pySorted_perm l).trans h).trans (pySorted_perm l').symm
  · exact pySorted_sorted l
  · exact pySorted_sorted l'

theorem pySorted_idem (l : List String) : pySorted (pySorted l) = pySorted l := by
  haveI := strLe_isAntisymm
  apply List.eq_of_perm_of_sorted (r := strLe)
  · exact pySorted_perm (pySorted l)
  · exact pySorted_sorted (pySorted l)
  · exact pySorted_sorted l

theorem foldl_max_le_init : ∀ (as : List Int) (b : Int), b ≤ as.foldl max b := by
  intro as
  induction as with
  | nil => intro b; simp
  | cons a as ih =>
    intro b
    simp only [List.foldl_cons]
    exact le_trans (le_max_left b a) (ih (max b a))

theorem mem_le_foldl_max : ∀ (as : List Int) (b x : Int),
    x ∈ as → x ≤ as.foldl max b := by
  intro as
  induction as with
  | nil => intro b x h; simp at h
  | cons a as ih =>
    intro b x h
    simp only [List.foldl_cons]
    rcases List.mem_cons.mp h with rfl | h
    · exact le_trans (le_max_right b x) (foldl_max_le_init as (max b x))
    · exact ih (max b a) x h

theorem le_maxIntList (l : List Int) (x : Int) (h : x ∈ l) :
    x ≤ maxIntList l := by
  cases l with
  | nil => simp at h
  | cons a as =>
    unfold maxIntList
    rcases List.mem_cons.mp h with rfl | h
    · exact foldl_max_le_init as x
    · exact mem_le_foldl_max as a x h

/-- C5 counterexample: in `walk_left` the walks-out guard precedes the
Tm guard, so with `col_index_left = 0` the branch raises `WalksOut`
even though the Tm of the current string already satisfies
`>= primer_tm_min` (the oracle here answers true for every string). -/
theorem claim_C5_counterexample :
    walk_left tmAlways 80 [["A"]] 5 0 0 "ACGT" = .error .walksOut ∧
    tmAlways "ACGT" = true :=
  ⟨rfl, rfl⟩

/-- C5 (amended): the Tm success return `{seq_str}` takes priority over
every other outcome **except** the walks-out guard: whenever
`col_index_left > 0` and `col_index_right > 0`, a branch whose current
string already reaches the Tm threshold returns `{seq_str}`; when
either index is `<= 0`, `WalksOut` is raised regardless of the Tm. -/
theorem claim_C5_amended (tmReached : String → Bool) (primerMaxWalk : Int)
    (array : List (List String)) (colIndexRight colIndexLeft rowIndex : Nat)
    (seqStr : String) (h1 : colIndexLeft ≠ 0) (h2 : colIndexRight ≠ 0)
    (h3 : tmReached seqStr = true) :
    walk_left tmReached primerMaxWalk array colIndexRight colIndexLeft
      rowIndex seqStr = .ok [.inl seqStr] := by
  obtain ⟨cl, rfl⟩ : ∃ cl, colIndexLeft = cl + 1 :=
    ⟨colIndexLeft - 1, by omega⟩
  simp [walk_left, h2, h3]

/-- Witness for the amended C5 at a concrete in-range call. -/
theorem claim_C5_witness :
    walk_left tmAlways 80 [["A"], ["C"]] 5 3 0 "AC" = .ok [.inl "AC"] :=
  claim_C5_amended tmAlways 80 [["A"], ["C"]] 5 3 0 "AC"
    (by decide) (by decide) (by decide)

/-- C3 counterexample: with `amplicon_size_min = 5`,
`amplicon_size_max = 6`, an FKmer with `min(starts) = 0` and an RKmer
with `start = 5` (inside the window) but sequence length 4, the
generator emits the pair although
`max(rprimer.ends) - min(fprimer.starts) = 9 > 6`; the pair is not
circular (`fprimer.end < rprimer.start`). -/
theorem claim_C3_counterexample :
    generate_valid_primerpairs (fun _ _ => false) [fkC3] [rkC3] 5 6 0 =
      [mkPrimerPairCore fkC3 rkC3 0] ∧
    maxIntList (rkEnds rkC3) - minIntList (fkStarts fkC3) > 6 ∧
    ¬ fkC3.endCol > rkC3.start := by
  decide

/-- C3 (amended): every pair the generator emits satisfies the window
law `amplicon_size_min ≤ rprimer.start - min(fprimer.starts) ≤
amplicon_size_max` (the windowing is on the RKmer's `start`, not on
`max(rprimer.ends)`); consequently the amplicon size
`max(rprimer.ends) - min(fprimer.starts)` exceeds `amplicon_size_min`
strictly (for non-degenerate sequence sets) but is only bounded above
by `amplicon_size_max` **plus** the reverse primer's length. -/
theorem claim_C3_amended (interactOracle : FKmerC → RKmerC → Bool)
    (fkmers : List FKmerC) (rkmers : List RKmerC)
    (ampliconSizeMin ampliconSizeMax msaIndex : Int) (p : PrimerPairCore)
    (hp : p ∈ generate_valid_primerpairs interactOracle fkmers rkmers
      ampliconSizeMin ampliconSizeMax msaIndex) :
    ampliconSizeMin ≤ p.rprimer.start - minIntList (fkStarts p.fprimer) ∧
    p.rprimer.start - minIntList (fkStarts p.fprimer) ≤ ampliconSizeMax ∧
    ((∃ s, s ∈ p.rprimer.seqs ∧ 0 < s.length) →
      ampliconSizeMin <
        maxIntList (rkEnds p.rprimer) - minIntList (fkStarts p.fprimer)) := by
  unfold generate_valid_primerpairs at hp
  rw [List.Perm.mem_iff (List.perm_insertionSort _ _)] at hp
  rw [List.mem_flatMap] at hp
  obtain ⟨fk, hfk, hp⟩ := hp
  rw [List.mem_filterMap] at hp
  obtain ⟨rk, hrk, hif⟩ := hp
  split at hif
  · exact Option.noConfusion hif
  · have hpeq : p = mkPrimerPairCore fk rk msaIndex :=
      (Option.some.inj hif).symm
    unfold get_r_window_FAST2 at hrk
    rw [List.mem_filter] at hrk
    have hcond := hrk.2
    simp only [decide_eq_true_eq] at hcond
    subst hpeq
    simp only [mkPrimerPairCore]
    refine ⟨by omega, by omega, ?_⟩
    rintro ⟨s, hs, hlen⟩
    have hmem : rk.start + (s.length : Int) ∈ rkEnds rk :=
      List.mem_map.mpr ⟨s, hs, rfl⟩
    have := le_maxIntList (rkEnds rk) _ hmem
    omega

/-- Witness for the amended C3 at the concrete generator run. -/
theorem claim_C3_witness :
    (5 : Int) ≤ (mkPrimerPairCore fkC3 rkC3 0).rprimer.start -
      minIntList (fkStarts (mkPrimerPairCore fkC3 rkC3 0).fprimer) ∧
    (mkPrimerPairCore fkC3 rkC3 0).rprimer.start -
      minIntList (fkStarts (mkPrimerPairCore fkC3 rkC3 0).fprimer) ≤ 6 ∧
    ((∃ s, s ∈ (mkPrimerPairCore fkC3 rkC3 0).rprimer.seqs ∧ 0 < s.length) →
      (5 : Int) < maxIntList (rkEnds (mkPrimerPairCore fkC3 rkC3 0).rprimer) -
        minIntList (fkStarts (mkPrimerPairCore fkC3 rkC3 0).fprimer)) :=
  claim_C3_amended (fun _ _ => false) [fkC3] [rkC3] 5 6 0
    (mkPrimerPairCore fkC3 rkC3 0) (by decide)

/-- C4: the mispriming detector is an exact iff — `detect_new_products`
returns true exactly when one of the two match collections has a `'+'`
entry and the other a `'-'` entry with the same msa index whose
positions satisfy `0 < pos_minus - pos_plus < product_size`. -/
theorem claim_C4_theorem (newMatches oldMatches : List MatchT)
    (productSize : Int) :
    detect_new_products newMatches oldMatches productSize = true ↔
      ∃ p m,
        ((p ∈ newMatches ∧ m ∈ oldMatches) ∨ (p ∈ oldMatches ∧ m ∈ newMatches)) ∧
        p.2.2 = '+' ∧ m.2.2 = '-' ∧ p.1 = m.1 ∧
        0 < m.2.1 - p.2.1 ∧ m.2.1 - p.2.1 < productSize := by
  simp only [detect_new_products, Bool.or_eq_true, List.any_eq_true,
    List.mem_filter, decide_eq_true_eq]
  constructor
  · rintro (⟨fm, ⟨hfm, hfp⟩, orm, ⟨horm, horn⟩, h1, h2, h3⟩ |
            ⟨rm, ⟨hrm, hrn⟩, ofm, ⟨hofm, hofp⟩, h1, h2, h3⟩)
    · exact ⟨fm, orm, Or.inl ⟨hfm, horm⟩, hfp, horn, h1, h2, h3⟩
    · exact ⟨ofm, rm, Or.inr ⟨hofm, hrm⟩, hofp, hrn, h1.symm, h2, h3⟩
  · rintro ⟨p, m, (⟨hp, hm⟩ | ⟨hp, hm⟩), hpp, hmm, h1, h2, h3⟩
    · exact Or.inl ⟨p, ⟨hp, hpp⟩, m, ⟨hm, hmm⟩, h1, h2, h3⟩
    · exact Or.inr ⟨m, ⟨hm, hmm⟩, p, ⟨hp, hpp⟩, h1.symm, h2, h3⟩

/-- C2 counterexample: a stored match in a *different* msa
(`(1, 5, '+')`, queried msa 0) is found by the raw suffix query and is
not the trivially expected hit `(0, fk.end - k, '+')`, yet
`find_fkmer` with `remove_expected = true` drops it — the result is
empty, not "matches minus the single expected hit". -/
theorem claim_C2_counterexample :
    find_fkmer dbC2 fkC2 false 2 0 true = [] ∧
    ((1 : Int), (5 : Int), '+') ∈
      findMatches dbC2 (dedupFO (fkC2.seqs.map (pySuffix 2))) false ∧
    (((1 : Int), (5 : Int), '+') : MatchT) ≠ ((0 : Int), fkC2.endCol - 2, '+') := by
  decide

/-- C2 (amended): with `remove_expected = true`, `find_fkmer` returns
exactly the matches of the 3'-end `kmersize`-length suffixes whose msa
index equals the queried `msaindex` **and** whose position differs from
`fk.end - kmersize`; in particular every match from a different msa is
dropped, whatever its position or strand. -/
theorem claim_C2_amended (db : MatchDBModel) (fk : FKmerC) (fuzzy : Bool)
    (kmersize : Nat) (msaindex : Int) (m : MatchT) :
    m ∈ find_fkmer db fk fuzzy kmersize msaindex true ↔
      (m ∈ findMatches db (dedupFO (fk.seqs.map (pySuffix kmersize))) fuzzy ∧
       m.2.1 ≠ fk.endCol - (kmersize : Int) ∧ m.1 = msaindex) := by
  simp [find_fkmer, List.mem_filter, and_assoc]

/-- C6: the code contradicts the documented equality contract — the
sorted copy of `seqs` computed inside `__hash__` is discarded, so two
FKmers with the same `end` and the same sequence set, presented in
different set-iteration orders, compare unequal. -/
theorem claim_C6_theorem :
    fkmerEqPy ⟨10, ["AA", "CC"]⟩ ⟨10, ["CC", "AA"]⟩ = false ∧
    (FKmerC.mk 10 ["AA", "CC"]).endCol = (FKmerC.mk 10 ["CC", "AA"]).endCol ∧
    pySorted ["AA", "CC"] = pySorted ["CC", "AA"] := by
  decide

/-- C9: `try_circular` indexes the last element of each candidate pool
without an emptiness check: in a state with a non-empty pool 0 (whose
last same-msa pair clashes, so the scan moves on) and an empty pool 1,
and with a dimer-free circular candidate available, the call raises
`IndexError` (`none`) instead of returning a `SchemeReturn` value. -/
theorem claim_C9_theorem :
    tryCircular extTriv cfgC9 msaC9 sC9 = none ∧
    sC9.pools.any List.isEmpty = true ∧
    extTriv.mpInterFree cPpC9 = false := by
  decide

theorem list_set_self {α : Type} : ∀ (l : List α) (j : Nat) (a : α),
    l.get? j = some a → l.set j a = l := by
  intro l
  induction l with
  | nil => intro j a h; simp at h
  | cons x xs ih =>
    intro j a h
    cases j with
    | zero =>
      simp only [List.get?_cons_zero, Option.some.injEq] at h
      simp [List.set, h]
    | succ j =>
      simp only [List.get?_cons_succ] at h
      simp [List.set, ih j a h]

theorem dropLast_append_of_getLast? {α : Type} {l : List α} {a : α}
    (h : l.getLast? = some a) : l.dropLast ++ [a] = l := by
  have hne : l ≠ [] := by
    intro he; rw [he] at h; simp at h
  have h2 : l.getLast hne = a := by
    rw [List.getLast?_eq_getLast l hne, Option.some.injEq] at h
    exact h
  rw [← h2]
  exact List.dropLast_append_getLast hne

theorem pyNatIdx_lt {α : Type} {l : List α} {i : Int} {j : Nat}
    (h : pyNatIdx l i = some j) : j < l.length := by
  unfold pyNatIdx at h
  split at h
  · split at h
    · cases h; assumption
    · cases h
  · split at h
    · cases h
      rename_i h0 hle
      have h1 : 1 ≤ (-i).toNat := by omega
      omega
    · cases h

theorem pyNatIdx_congr {α β : Type} (l : List α) (l' : List β) (i : Int)
    (h : l.length = l'.length) : pyNatIdx l i = pyNatIdx l' i := by
  unfold pyNatIdx
  rw [h]

theorem get?_set_self' {α : Type} (l : List α) (j : Nat) (a : α)
    (h : j < l.length) : (l.set j a).get? j = some a := by
  rw [List.get?_eq_getElem?]
  exact List.getElem?_set_eq_of_lt a h

theorem pyApply_none {α : Type} {l : List α} {i : Int} (f : α → α)
    (h : pyNatIdx l i = none) : pyApply l i f = l := by
  simp [pyApply, h]

theorem pyApply_some {α : Type} {l : List α} {i : Int} {j : Nat} {a : α}
    (f : α → α) (hj : pyNatIdx l i = some j) (ha : l.get? j = some a) :
    pyApply l i f = l.set j (f a) := by
  have ha' : l[j]? = some a := by rw [← List.get?_eq_getElem?]; exact ha
  simp [pyApply, hj, ha']

theorem pyGet_none' {α : Type} {l : List α} {i : Int}
    (h : pyNatIdx l i = none) : pyGet l i = none := by
  simp [pyGet, h]

theorem pyGet_some {α : Type} {l : List α} {i : Int} {j : Nat} {a : α}
    (hj : pyNatIdx l i = some j) (ha : l.get? j = some a) :
    pyGet l i = some a := by
  have ha' : l[j]? = some a := by rw [← List.get?_eq_getElem?]; exact ha
  simp [pyGet, hj, ha']

theorem pyGet_inv {α : Type} {l : List α} {i : Int} {a : α}
    (h : pyGet l i = some a) :
    ∃ j, pyNatIdx l i = some j ∧ l.get? j = some a := by
  unfold pyGet at h
  cases hj : pyNatIdx l i with
  | none => rw [hj] at h; simp at h
  | some j => rw [hj] at h; exact ⟨j, rfl, h⟩

theorem add_pools_eq (ext : SchemeExt) (cfg : SchemeCfg) (pp : PrimerPairD)
    (pool msa : Int) (s : SchemeState) :
    (addPrimerPairToPool ext cfg pp pool msa s).pools =
      pyApply s.pools pool (fun ps => ps ++ [installPP pp pool msa s.pools]) :=
  rfl

theorem add_lastAdded_eq (ext : SchemeExt) (cfg : SchemeCfg) (pp : PrimerPairD)
    (pool msa : Int) (s : SchemeState) :
    (addPrimerPairToPool ext cfg pp pool msa s).lastAdded =
      s.lastAdded ++ [installPP pp pool msa s.pools] :=
  rfl

theorem add_currentPool_eq (ext : SchemeExt) (cfg : SchemeCfg) (pp : PrimerPairD)
    (pool msa : Int) (s : SchemeState) :
    (addPrimerPairToPool ext cfg pp pool msa s).currentPool =
      (pool + 1) % (cfg.npools : Int) :=
  rfl

theorem installPP_pool (pp : PrimerPairD) (pool msa : Int)
    (pools : List (List PrimerPairD)) : (installPP pp pool msa pools).pool = pool :=
  rfl

/-- Popping right after installing restores the pool lists and the
stack exactly (the match union is what may change). -/
theorem removeLast_add {ext : SchemeExt} {cfg : SchemeCfg} {pp : PrimerPairD}
    {pool msa : Int} {s : SchemeState} {c : PrimerPairD} {s3 : SchemeState}
    (h : removeLastPrimerPair ext cfg (addPrimerPairToPool ext cfg pp pool msa s) =
      some (c, s3)) :
    s3.pools = s.pools ∧ s3.lastAdded = s.lastAdded := by
  have hlast : (addPrimerPairToPool ext cfg pp pool msa s).lastAdded.getLast? =
      some (installPP pp pool msa s.pools) := by
    rw [add_lastAdded_eq]; exact List.getLast?_concat _
  unfold removeLastPrimerPair at h
  simp only [hlast, installPP_pool] at h
  cases hj : pyNatIdx s.pools pool with
  | none =>
    have hap : (addPrimerPairToPool ext cfg pp pool msa s).pools = s.pools := by
      rw [add_pools_eq]; exact pyApply_none _ hj
    simp only [show pyGet (addPrimerPairToPool ext cfg pp pool msa s).pools pool =
      none from hap ▸ pyGet_none' hj] at h
    exact Option.noConfusion h
  | some j =>
    have hjl : j < s.pools.length := pyNatIdx_lt hj
    obtain ⟨orig, ho⟩ : ∃ o, s.pools.get? j = some o := ⟨_, List.get?_eq_get hjl⟩
    have hap : (addPrimerPairToPool ext cfg pp pool msa s).pools =
        s.pools.set j (orig ++ [installPP pp pool msa s.pools]) := by
      rw [add_pools_eq]; exact pyApply_some _ hj ho
    have hlen : (addPrimerPairToPool ext cfg pp pool msa s).pools.length =
        s.pools.length := by rw [hap]; simp
    have hj2 : pyNatIdx (addPrimerPairToPool ext cfg pp pool msa s).pools pool =
        some j := by rw [pyNatIdx_congr _ s.pools pool hlen]; exact hj
    have hget : (addPrimerPairToPool ext cfg pp pool msa s).pools.get? j =
        some (orig ++ [installPP pp pool msa s.pools]) := by
      rw [hap]; exact get?_set_self' _ _ _ hjl
    have hne : (orig ++ [installPP pp pool msa s.pools]).isEmpty = false := by
      cases orig <;> rfl
    simp only [pyGet_some hj2 hget, hne, Bool.false_eq_true, if_false,
      Option.some.injEq, Prod.mk.injEq] at h
    obtain ⟨_hc, hs3⟩ := h
    constructor
    · rw [← hs3]
      show pyApply (addPrimerPairToPool ext cfg pp pool msa s).pools pool
        List.dropLast = s.pools
      rw [pyApply_some _ hj2 hget, List.dropLast_concat, hap,
        List.set_set]
      exact list_set_self _ _ _ ho
    · rw [← hs3]
      show (addPrimerPairToPool ext cfg pp pool msa s).lastAdded.dropLast =
        s.lastAdded
      rw [add_lastAdded_eq, List.dropLast_concat]

/-- A non-`ADDED` `try_ol_primerpairs` outcome leaves the state
untouched (the candidate scan only reads until it adds). -/
theorem tryOlList_cases (ext : SchemeExt) (cfg : SchemeCfg) (msaIndex : Int)
    (its : List (Int × List String)) (posPools : List Int) :
    ∀ (cands : List PrimerPairD) (s : SchemeState) (r : SchemeReturn)
      (s' : SchemeState),
      tryOlList ext cfg msaIndex its posPools cands s = some (r, s') →
      r = .ADDED_OL_PRIMERPAIR ∨ (r = .NO_OL_PRIMERPAIR ∧ s' = s) := by
  intro cands
  induction cands with
  | nil =>
    intro s r s' h
    simp only [tryOlList, Option.some.injEq, Prod.mk.injEq] at h
    exact Or.inr ⟨h.1.symm, h.2.symm⟩
  | cons pp rest ih =>
    intro s r s' h
    simp only [tryOlList] at h
    cases hp : tryOlPools ext cfg msaIndex its pp posPools s with
    | none => simp only [hp] at h; exact Option.noConfusion h
    | some o =>
      cases o with
      | some s'' =>
        simp only [hp, Option.some.injEq, Prod.mk.injEq] at h
        exact Or.inl h.1.symm
      | none =>
        simp only [hp] at h
        exact ih s r s' h

theorem tryOlPrimerpairs_cases (ext : SchemeExt) (cfg : SchemeCfg)
    (allPp : List PrimerPairD) (msaIndex : Int) (s : SchemeState)
    (r : SchemeReturn) (s' : SchemeState)
    (h : tryOlPrimerpairs ext cfg allPp msaIndex s = some (r, s')) :
    r = .ADDED_OL_PRIMERPAIR ∨ (r = .NO_OL_PRIMERPAIR ∧ s' = s) := by
  unfold tryOlPrimerpairs at h
  cases hl : s.lastAdded.getLast? with
  | none => rw [hl] at h; simp at h
  | some lastPp =>
    simp only [hl] at h
    split at h
    · exact Option.noConfusion h
    · split at h
      · exact Option.noConfusion h
      · exact tryOlList_cases ext cfg msaIndex _ _ _ s r s' h

/-- An early return of the backtrack pool scan always carries
`ADDED_BACKTRACKED`. -/
theorem btPoolLoop_inl (ext : SchemeExt) (cfg : SchemeCfg)
    (allPp : List PrimerPairD) (msaIndex : Int)
    (its : List (Int × List String)) (olPp : PrimerPairD) :
    ∀ (pls : List Int) (s : SchemeState) (r : SchemeReturn × SchemeState),
      btPoolLoop ext cfg allPp msaIndex its olPp pls s = some (.inl r) →
      r.1 = .ADDED_BACKTRACKED := by
  intro pls
  induction pls with
  | nil => intro s r h; simp [btPoolLoop] at h
  | cons i rest ih =>
    intro s r h
    simp only [btPoolLoop] at h
    split at h
    · exact Option.noConfusion h
    · split at h
      · simp only [Option.some.injEq, Sum.inl.injEq] at h
        rw [← h]
      · split at h
        · exact Option.noConfusion h
        · split at h
          · exact ih _ r h
          · split at h
            · exact ih _ r h
            · split at h
              · exact Option.noConfusion h
              · split at h
                · exact ih _ r h
                · split at h
                  · exact Option.noConfusion h
                  · split at h
                    · simp only [Option.some.injEq, Sum.inl.injEq] at h
                      rw [← h]
                    · split at h
                      · exact Option.noConfusion h
                      · exact ih _ r h

/-- Falling through the backtrack pool scan preserves the pool lists
and the stack (each tried candidate is installed and then removed). -/
theorem btPoolLoop_inr (ext : SchemeExt) (cfg : SchemeCfg)
    (allPp : List PrimerPairD) (msaIndex : Int)
    (its : List (Int × List String)) (olPp : PrimerPairD) :
    ∀ (pls : List Int) (s s2 : SchemeState),
      btPoolLoop ext cfg allPp msaIndex its olPp pls s = some (.inr s2) →
      s2.pools = s.pools ∧ s2.lastAdded = s.lastAdded := by
  intro pls
  induction pls with
  | nil =>
    intro s s2 h
    simp only [btPoolLoop, Option.some.injEq, Sum.inr.injEq] at h
    rw [← h]
    exact ⟨rfl, rfl⟩
  | cons i rest ih =>
    intro s s2 h
    simp only [btPoolLoop] at h
    split at h
    · exact Option.noConfusion h
    · split at h
      · simp at h
      · split at h
        · exact Option.noConfusion h
        · split at h
          · exact ih _ s2 h
          · split at h
            · exact ih _ s2 h
            · split at h
              · exact Option.noConfusion h
              · split at h
                · exact ih _ s2 h
                · split at h
                  · exact Option.noConfusion h
                  · rename_i olRes s2' hol
                    split at h
                    · simp at h
                    · rename_i hne
                      split at h
                      · exact Option.noConfusion h
                      · rename_i cs3 hrm
                        have hres := tryOlPrimerpairs_cases ext cfg allPp
                          msaIndex _ olRes s2' hol
                        have hs2' : s2' =
                            addPrimerPairToPool ext cfg olPp i msaIndex s := by
                          rcases hres with hadd | ⟨_, hsame⟩
                          · exact absurd hadd hne
                          · exact hsame
                        rw [hs2'] at hrm
                        have hrest := removeLast_add hrm
                        have hih := ih _ s2 h
                        exact ⟨hih.1.trans hrest.1, hih.2.trans hrest.2⟩

theorem btCandLoop_inl (ext : SchemeExt) (cfg : SchemeCfg)
    (allPp : List PrimerPairD) (msaIndex : Int)
    (its : List (Int × List String)) (posPools : List Int) :
    ∀ (cands : List PrimerPairD) (s : SchemeState)
      (r : SchemeReturn × SchemeState),
      btCandLoop ext cfg allPp msaIndex its posPools cands s = some (.inl r) →
      r.1 = .ADDED_BACKTRACKED := by
  intro cands
  induction cands with
  | nil => intro s r h; simp [btCandLoop] at h
  | cons olPp rest ih =>
    intro s r h
    simp only [btCandLoop] at h
    cases hp : btPoolLoop ext cfg allPp msaIndex its olPp posPools s with
    | none => simp only [hp] at h; exact Option.noConfusion h
    | some o =>
      cases o with
      | inl r' =>
        simp only [hp, Option.some.injEq, Sum.inl.injEq] at h
        rw [← h]
        exact btPoolLoop_inl ext cfg allPp msaIndex its olPp posPools s r' hp
      | inr s' =>
        simp only [hp] at h
        exact ih s' r h

theorem btCandLoop_inr (ext : SchemeExt) (cfg : SchemeCfg)
    (allPp : List PrimerPairD) (msaIndex : Int)
    (its : List (Int × List String)) (posPools : List Int) :
    ∀ (cands : List PrimerPairD) (s s2 : SchemeState),
      btCandLoop ext cfg allPp msaIndex its posPools cands s = some (.inr s2) →
      s2.pools = s.pools ∧ s2.lastAdded = s.lastAdded := by
  intro cands
  induction cands with
  | nil =>
    intro s s2 h
    simp only [btCandLoop, Option.some.injEq, Sum.inr.injEq] at h
    rw [← h]
    exact ⟨rfl, rfl⟩
  | cons olPp rest ih =>
    intro s s2 h
    simp only [btCandLoop] at h
    cases hp : btPoolLoop ext cfg allPp msaIndex its olPp posPools s with
    | none => simp only [hp] at h; exact Option.noConfusion h
    | some o =>
      cases o with
      | inl r' => simp only [hp] at h; simp at h
      | inr s' =>
        simp only [hp] at h
        have h1 := btPoolLoop_inr ext cfg allPp msaIndex its olPp posPools
          s s' hp
        have h2 := ih s' s2 h
        exact ⟨h2.1.trans h1.1, h2.2.trans h1.2⟩

/-- C1 (amended): when `try_backtrack` returns `NO_BACKTRACK` on a
consistent scheme state (stack top `lp` is the last pair of its pool,
its `msa_index` is the queried one, and its `amplicon_number` is the
same-msa pair count it would be re-assigned), the per-pool pair lists,
the last-added stack and the current-pool cursor are restored — but
the per-pool match unions need not be (the counterexample shows them
change). -/
theorem claim_C1_amended (ext : SchemeExt) (cfg : SchemeCfg)
    (allPp : List PrimerPairD) (msaIndex : Int) (s : SchemeState)
    (lp : PrimerPairD) (pl : List PrimerPairD) (s' : SchemeState)
    (hlp : s.lastAdded.getLast? = some lp)
    (hpl : pyGet s.pools lp.pool = some pl)
    (htop : pl.getLast? = some lp)
    (hmsa : lp.msaIndex = msaIndex)
    (hamp : lp.ampliconNumber =
      countMsaPairs (pyApply s.pools lp.pool List.dropLast) msaIndex)
    (h : tryBacktrack ext cfg allPp msaIndex s = some (.NO_BACKTRACK, s')) :
    s'.pools = s.pools ∧ s'.lastAdded = s.lastAdded ∧
      s'.currentPool = (lp.pool + 1) % (cfg.npools : Int) := by
  have hplne : pl.isEmpty = false := by
    cases pl with
    | nil => simp at htop
    | cons x xs => rfl
  obtain ⟨j, hj, hgj⟩ := pyGet_inv hpl
  unfold tryBacktrack at h
  set s1 : SchemeState :=
    { pools := pyApply s.pools lp.pool List.dropLast
      schemeMatches := pyApply s.schemeMatches lp.pool
        (fun m => m \ (ppFindMatches ext.db lp cfg.mismatchFuzzy
          false cfg.mismatchKmersize).toFinset)
      currentPool := lp.pool
      lastAdded := s.lastAdded.dropLast } with hs1
  have hrem : removeLastPrimerPair ext cfg s = some (lp, s1) := by
    unfold removeLastPrimerPair
    simp only [hlp]
    rw [hpl]
    simp only [hplne, Bool.false_eq_true, if_false]
  simp only [hrem] at h
  cases hf : findOlPrimerpairsState s1 allPp 1 with
  | none => simp only [hf] at h; exact Option.noConfusion h
  | some window =>
    simp only [hf] at h
    cases hb : buildIndexToSeqs s1.pools [lp.pool] with
    | none => simp only [hb] at h; exact Option.noConfusion h
    | some its =>
      simp only [hb] at h
      cases hc : btCandLoop ext cfg allPp msaIndex its [lp.pool]
          (ext.sortBt (window.filter (fun pp => pp ≠ lp))) s1 with
      | none => simp only [hc] at h; exact Option.noConfusion h
      | some o =>
        cases o with
        | inl r' =>
          simp only [hc, Option.some.injEq] at h
          have := btCandLoop_inl ext cfg allPp msaIndex its [lp.pool] _ _ _ hc
          rw [h] at this
          simp at this
        | inr s2 =>
          simp only [hc, Option.some.injEq, Prod.mk.injEq] at h
          have hs' : s' = addPrimerPairToPool ext cfg lp lp.pool msaIndex s2 :=
            h.2.symm
          obtain ⟨hp2, hl2⟩ := btCandLoop_inr ext cfg allPp msaIndex its
            [lp.pool] _ s1 s2 hc
          have hinst : installPP lp lp.pool msaIndex s2.pools = lp := by
            unfold installPP
            rw [hp2]
            rw [show countMsaPairs s1.pools msaIndex = lp.ampliconNumber from
              hamp.symm]
            rw [← hmsa]
          constructor
          · rw [hs', add_pools_eq, hinst, hp2]
            show pyApply s1.pools lp.pool (fun ps => ps ++ [lp]) = s.pools
            have hs1p : s1.pools = s.pools.set j pl.dropLast :=
              pyApply_some _ hj hgj
            have hlen : s1.pools.length = s.pools.length := by
              rw [hs1p]; simp
            have hj1 : pyNatIdx s1.pools lp.pool = some j := by
              rw [pyNatIdx_congr _ s.pools lp.pool hlen]; exact hj
            have hgj1 : s1.pools.get? j = some pl.dropLast := by
              rw [hs1p]
              exact get?_set_self' _ _ _ (pyNatIdx_lt hj)
            rw [pyApply_some _ hj1 hgj1, hs1p, List.set_set,
              dropLast_append_of_getLast? htop]
            exact list_set_self _ _ _ hgj
          constructor
          · rw [hs', add_lastAdded_eq, hinst, hl2]
            show s1.lastAdded ++ [lp] = s.lastAdded
            show s.lastAdded.dropLast ++ [lp] = s.lastAdded
            exact dropLast_append_of_getLast? hlp
          · rw [hs', add_currentPool_eq]

/-- Witness for the amended C1 at the concrete backtrack scenario. -/
theorem claim_C1_witness :
    sPostC1.pools = sPreC1.pools ∧ sPostC1.lastAdded = sPreC1.lastAdded ∧
      sPostC1.currentPool = (pBC1.pool + 1) % (cfgC1.npools : Int) :=
  claim_C1_amended extC1 cfgC1 [cPpC1] 0 sPreC1 pBC1 [pXC1, pBC1] sPostC1
    (by decide) (by decide) (by decide) (by decide) (by decide) (by decide)

/-- C1 counterexample: a `try_backtrack` call that returns
`NO_BACKTRACK` yet changes the scheme state.  The rejected replacement
candidate's matches are added to pool 0's match union with
`find_matches(fuzzy→remove_expected swapped) = fuzzy lookup` and
removed with the plain lookup, so `(0,100,±)` stays behind. -/
theorem claim_C1_counterexample :
    tryBacktrack extC1 cfgC1 [cPpC1] 0 sPreC1 =
      some (.NO_BACKTRACK, sPostC1) ∧
    sPostC1.schemeMatches ≠ sPreC1.schemeMatches := by
  decide

theorem pyNatIdx_natCast {α : Type} (l : List α) (i : Nat) (h : i < l.length) :
    pyNatIdx l (i : Int) = some i := by
  simp [pyNatIdx, Int.toNat_natCast, h]

theorem pyGet_natCast {α : Type} (l : List α) (i : Nat) (h : i < l.length) :
    pyGet l (i : Int) = l.get? i := by
  simp [pyGet, pyNatIdx_natCast l i h]

theorem firstEmptyPool_isSome (pools : List (List PrimerPairD)) :
    ∀ idxs : List Nat, (∀ i ∈ idxs, i < pools.length) →
      (firstEmptyPool pools idxs).isSome := by
  intro idxs
  induction idxs with
  | nil => intro _; simp [firstEmptyPool]
  | cons i rest ih =>
    intro h
    have hi : i < pools.length := h i (by simp)
    obtain ⟨l, hl⟩ : ∃ l, pools.get? i = some l :=
      ⟨_, List.get?_eq_get hi⟩
    simp only [firstEmptyPool, hl]
    split
    · simp
    · exact ih (fun j hj => h j (by simp [hj]))

theorem buildIndexToSeqs_isSome (pools : List (List PrimerPairD)) :
    ∀ idxs : List Int, (∀ i ∈ idxs, (pyGet pools i).isSome) →
      (buildIndexToSeqs pools idxs).isSome := by
  intro idxs
  induction idxs with
  | nil => intro _; simp [buildIndexToSeqs]
  | cons i rest ih =>
    intro h
    obtain ⟨l, hl⟩ : ∃ l, pyGet pools i = some l :=
      Option.isSome_iff_exists.mp (h i (by simp))
    have hrest := ih (fun j hj => h j (by simp [hj]))
    simp only [buildIndexToSeqs, hl]
    cases hb : buildIndexToSeqs pools rest with
    | none => rw [hb] at hrest; simp at hrest
    | some r => simp

theorem addFirstInner_isSome (ext : SchemeExt) (cfg : SchemeCfg)
    (msaIndex : Int) (pm : List (Nat × List String)) (pp : PrimerPairD) :
    ∀ (idxs : List Nat) (s : SchemeState),
      (∀ i ∈ idxs, i < s.schemeMatches.length) →
      (addFirstInner ext cfg msaIndex pm pp idxs s).isSome := by
  intro idxs
  induction idxs with
  | nil => intro s _; simp [addFirstInner]
  | cons i rest ih =>
    intro s h
    have hi : i < s.schemeMatches.length := h i (by simp)
    obtain ⟨ms, hms⟩ : ∃ ms, s.schemeMatches.get? i = some ms :=
      ⟨_, List.get?_eq_get hi⟩
    simp only [addFirstInner, pyGet_natCast _ _ hi, hms]
    split
    · exact ih s (fun j hj => h j (by simp [hj]))
    · split
      · exact ih s (fun j hj => h j (by simp [hj]))
      · simp

theorem addFirstOuter_ret (ext : SchemeExt) (cfg : SchemeCfg)
    (msaIndex : Int) (pm : List (Nat × List String)) :
    ∀ (cands : List PrimerPairD) (s : SchemeState),
      (∀ i ∈ List.range cfg.npools, i < s.schemeMatches.length) →
      ∃ r s', addFirstOuter ext cfg msaIndex pm cands s =
        some (.ret r, s') := by
  intro cands
  induction cands with
  | nil => intro s _; exact ⟨.NO_FIRST_PRIMERPAIR, s, rfl⟩
  | cons pp rest ih =>
    intro s h
    have hsome := addFirstInner_isSome ext cfg msaIndex pm pp
      (List.range cfg.npools) s h
    cases hinner : addFirstInner ext cfg msaIndex pm pp
        (List.range cfg.npools) s with
    | none => rw [hinner] at hsome; simp at hsome
    | some o =>
      cases o with
      | none => simpa [addFirstOuter, hinner] using ih s h
      | some s' =>
        exact ⟨.ADDED_FIRST_PRIMERPAIR, s', by
          simp [addFirstOuter, hinner]⟩

/-- C10: called with an empty candidate list, `add_first_primer_pair`
returns the bare boolean `False` (not a `SchemeReturn` member) and
leaves the scheme state untouched; on any non-empty candidate list (in
a state with the `Scheme.__init__` shape, `n_pools` pools and match
sets) it returns a `SchemeReturn` member. -/
theorem claim_C10_theorem (ext : SchemeExt) (cfg : SchemeCfg) (msaIndex : Int) :
    (∀ s : SchemeState,
      addFirstPrimerPair ext cfg [] msaIndex s = some (.pyFalse, s)) ∧
    (∀ (s : SchemeState) (cands : List PrimerPairD),
      cands ≠ [] → cfg.npools ≤ s.pools.length →
      cfg.npools ≤ s.schemeMatches.length →
      ∃ r s', addFirstPrimerPair ext cfg cands msaIndex s =
        some (.ret r, s')) := by
  constructor
  · intro s; rfl
  · intro s cands hne hp hm
    match cands with
    | [] => exact absurd rfl hne
    | pp0 :: rest =>
      have hfe := firstEmptyPool_isSome s.pools (List.range cfg.npools)
        (fun i hi => lt_of_lt_of_le (List.mem_range.mp hi) hp)
      cases hfe2 : firstEmptyPool s.pools (List.range cfg.npools) with
      | none => rw [hfe2] at hfe; simp at hfe
      | some o =>
        cases o with
        | some i =>
          exact ⟨.ADDED_FIRST_PRIMERPAIR,
            addPrimerPairToPool ext cfg pp0 (i : Int) msaIndex s, by
              simp [addFirstPrimerPair, hfe2]⟩
        | none =>
          have hb := buildIndexToSeqs_isSome s.pools
            ((List.range cfg.npools).map (fun i : Nat => (i : Int)))
            (by
              intro j hj
              obtain ⟨i, hi, hij⟩ := List.mem_map.mp hj
              have hilt : i < s.pools.length :=
                Nat.lt_of_lt_of_le (List.mem_range.mp hi) hp
              rw [← hij, pyGet_natCast _ _ hilt, List.get?_eq_get hilt]
              rfl)
          cases hb2 : buildIndexToSeqs s.pools
              ((List.range cfg.npools).map (fun i : Nat => (i : Int))) with
          | none => rw [hb2] at hb; simp at hb
          | some pm =>
            obtain ⟨r, s', hr⟩ := addFirstOuter_ret ext cfg msaIndex
              (pm.map (fun x => (x.1.toNat, x.2))) (pp0 :: rest) s
              (fun i hi => lt_of_lt_of_le (List.mem_range.mp hi) hm)
            exact ⟨r, s', by
              simp only [addFirstPrimerPair, hfe2, hb2]
              exact hr⟩

/-- Witness for C10 at a concrete one-pool scheme. -/
theorem claim_C10_witness :
    addFirstPrimerPair extTriv cfgC10 [] 0 sC10 = some (.pyFalse, sC10) ∧
    (∃ r s', addFirstPrimerPair extTriv cfgC10 [ppC10] 0 sC10 =
      some (.ret r, s')) :=
  ⟨(claim_C10_theorem extTriv cfgC10 0).1 sC10,
   (claim_C10_theorem extTriv cfgC10 0).2 sC10 [ppC10]
     (by decide) (by decide) (by decide)⟩

/-- C8: `set_pool_number(n)` overwrites `amplicon_number` with `n`,
leaves `pool` unchanged, and touches no other field. -/
theorem claim_C8_theorem (p : PrimerPairCore) (n : Int) :
    (set_pool_number p n).pool = p.pool ∧
    (set_pool_number p n).ampliconNumber = n ∧
    (set_pool_number p n).fprimer = p.fprimer ∧
    (set_pool_number p n).rprimer = p.rprimer ∧
    (set_pool_number p n).msaIndex = p.msaIndex ∧
    (set_pool_number p n).chromName = p.chromName ∧
    (set_pool_number p n).ampPfx = p.ampPfx :=
  ⟨rfl, rfl, rfl, rfl, rfl, rfl, rfl⟩


/-! ### Lemmas for the BED round trip: first-occurrence dedup -/

theorem mem_dedupFOAux {α : Type} [DecidableEq α] {x : α} :
    ∀ (l : List α) (seen : List α),
      x ∈ dedupFOAux seen l ↔ x ∈ l ∧ x ∉ seen := by
  intro l
  induction l with
  | nil => intro seen; simp [dedupFOAux]
  | cons a as ih =>
    intro seen
    simp only [dedupFOAux]
    by_cases ha : a ∈ seen
    · rw [if_pos ha, ih]
      simp only [List.mem_cons]
      constructor
      · rintro ⟨hx, hs⟩
        exact ⟨Or.inr hx, hs⟩
      · rintro ⟨hx, hs⟩
        rcases hx with rfl | hx
        · exact absurd ha hs
        · exact ⟨hx, hs⟩
    · rw [if_neg ha]
      simp only [List.mem_cons, ih, List.mem_append, not_or]
      constructor
      · rintro (rfl | ⟨hx, hs⟩)
        · exact ⟨Or.inl rfl, ha⟩
        · exact ⟨Or.inr hx, hs.1⟩
      · rintro ⟨hx, hs⟩
        rcases eq_or_ne x a with rfl | hne
        · exact Or.inl rfl
        · rcases hx with rfl | hx
          · exact absurd rfl hne
          · exact Or.inr ⟨hx, hs, hne, by simp⟩

theorem nodup_dedupFOAux {α : Type} [DecidableEq α] :
    ∀ (l seen : List α), (dedupFOAux seen l).Nodup := by
  intro l
  induction l with
  | nil => intro seen; simp [dedupFOAux]
  | cons a as ih =>
    intro seen
    simp only [dedupFOAux]
    by_cases ha : a ∈ seen
    · simpa [ha] using ih seen
    · rw [if_neg ha, List.nodup_cons]
      refine ⟨?_, ih _⟩
      rw [mem_dedupFOAux]
      rintro ⟨-, hs⟩
      exact hs (by simp)

theorem mem_dedupFO {α : Type} [DecidableEq α] {x : α} (l : List α) :
    x ∈ dedupFO l ↔ x ∈ l := by
  unfold dedupFO; rw [mem_dedupFOAux]; simp

theorem nodup_dedupFO {α : Type} [DecidableEq α] (l : List α) :
    (dedupFO l).Nodup :=
  nodup_dedupFOAux l []

theorem dedupFOAux_eq_self {α : Type} [DecidableEq α] :
    ∀ (l seen : List α), l.Nodup → (∀ x ∈ l, x ∉ seen) →
      dedupFOAux seen l = l := by
  intro l
  induction l with
  | nil => intro seen _ _; rfl
  | cons a as ih =>
    intro seen hnd hdisj
    simp only [dedupFOAux]
    have ha : a ∉ seen := hdisj a (by simp)
    rw [if_neg ha]
    congr 1
    refine ih _ (List.Nodup.of_cons hnd) ?_
    intro x hx
    simp only [List.mem_append, List.mem_cons, not_or]
    refine ⟨hdisj x (by simp [hx]), ?_, by simp⟩
    rintro rfl
    exact (List.nodup_cons.mp hnd).1 hx

theorem dedupFO_eq_self {α : Type} [DecidableEq α] {l : List α}
    (h : l.Nodup) : dedupFO l = l :=
  dedupFOAux_eq_self l [] h (by simp)

/-! ### Lemmas for the BED round trip: decimal representations -/

theorem digitChar_toNat {d : Nat} (h : d < 10) :
    (Char.ofNat (48 + d)).toNat = 48 + d := by
  interval_cases d <;> decide

theorem foldl_digitChars :
    ∀ (ds : List Nat) (acc : Nat), (∀ d ∈ ds, d < 10) →
      ((ds.map (fun d => Char.ofNat (48 + d))).reverse).foldl
        (fun a c => a * 10 + (c.toNat - 48)) acc
        = acc * 10 ^ ds.length + Nat.ofDigits 10 ds := by
  intro ds
  induction ds with
  | nil => intro acc _; simp [Nat.ofDigits]
  | cons d ds ih =>
    intro acc hlt
    simp only [List.map_cons, List.reverse_cons, List.foldl_append,
      List.foldl_cons, List.foldl_nil]
    rw [ih acc (fun x hx => hlt x (List.mem_cons_of_mem _ hx))]
    rw [digitChar_toNat (hlt d (by simp))]
    rw [Nat.ofDigits_cons, List.length_cons, pow_succ,
      Nat.add_sub_cancel_left]
    ring

theorem digits_char_mem_range {n : Nat} {c : Char}
    (hc : c ∈ ((Nat.digits 10 n).map (fun d => Char.ofNat (48 + d))).reverse) :
    48 ≤ c.toNat ∧ c.toNat ≤ 57 := by
  rw [List.mem_reverse] at hc
  rcases List.mem_map.mp hc with ⟨d, hd, rfl⟩
  have hlt : d < 10 := Nat.digits_lt_base (by norm_num) hd
  rw [digitChar_toNat hlt]
  omega

theorem parseDigits_pyNatRepr (n : Nat) :
    parseDigits (pyNatRepr n).data = some n := by
  by_cases h0 : n = 0
  · subst h0; decide
  · unfold pyNatRepr
    simp only [h0, if_false]
    show parseDigits (((Nat.digits 10 n).map
      (fun d => Char.ofNat (48 + d))).reverse) = some n
    unfold parseDigits
    have hne : ((Nat.digits 10 n).map
        (fun d => Char.ofNat (48 + d))).reverse ≠ [] := by
      simp [Nat.digits_ne_nil_iff_ne_zero.mpr h0]
    have hall : (((Nat.digits 10 n).map
        (fun d => Char.ofNat (48 + d))).reverse).all
        (fun c => 48 ≤ c.toNat ∧ c.toNat ≤ 57) = true := by
      rw [List.all_eq_true]
      intro c hc
      exact decide_eq_true (digits_char_mem_range hc)
    rw [if_neg hne, if_pos hall]
    rw [foldl_digitChars _ 0 (fun d hd => Nat.digits_lt_base (by norm_num) hd)]
    rw [Nat.ofDigits_digits]
    simp

theorem pyNatRepr_chars {n : Nat} {c : Char} (hc : c ∈ (pyNatRepr n).data) :
    48 ≤ c.toNat ∧ c.toNat ≤ 57 := by
  unfold pyNatRepr at hc
  by_cases h0 : n = 0
  · simp only [h0, if_true] at hc
    have hc0 : c = '0' := by simpa using hc
    subst hc0
    decide
  · simp only [h0, if_false] at hc
    exact digits_char_mem_range hc

theorem pyNatRepr_ne_nil (n : Nat) : (pyNatRepr n).data ≠ [] := by
  unfold pyNatRepr
  by_cases h0 : n = 0
  · simp only [h0, if_true]
    intro h
    cases h
  · simp [h0, Nat.digits_ne_nil_iff_ne_zero.mpr h0]

theorem pyIntRepr_chars {i : Int} {c : Char} (hc : c ∈ (pyIntRepr i).data) :
    c.toNat = 45 ∨ (48 ≤ c.toNat ∧ c.toNat ≤ 57) := by
  unfold pyIntRepr at hc
  by_cases hneg : i < 0
  · simp only [hneg, if_true] at hc
    have hdat : ("-" ++ pyNatRepr (-i).toNat).data
        = '-' :: (pyNatRepr (-i).toNat).data := rfl
    rw [hdat] at hc
    rcases List.mem_cons.mp hc with rfl | h
    · left; decide
    · right; exact pyNatRepr_chars h
  · simp only [hneg, if_false] at hc
    right; exact pyNatRepr_chars hc

theorem pyIntRepr_ne_nil (i : Int) : (pyIntRepr i).data ≠ [] := by
  unfold pyIntRepr
  by_cases hneg : i < 0
  · simp only [hneg, if_true]
    have hdat : ("-" ++ pyNatRepr (-i).toNat).data
        = '-' :: (pyNatRepr (-i).toNat).data := rfl
    rw [hdat]
    intro h
    cases h
  · simp only [hneg, if_false]
    exact pyNatRepr_ne_nil _

theorem pyIntRepr_clean {i : Int} {c : Char} (hc : c ∈ (pyIntRepr i).data) :
    isWsChar c = false ∧ c ≠ '_' := by
  have h := pyIntRepr_chars hc
  constructor
  · simp only [isWsChar, decide_eq_false_iff_not, not_or]
    refine ⟨?_, ?_, ?_, ?_⟩ <;> rintro rfl <;> revert h <;> decide
  · rintro rfl
    revert h
    decide

theorem pyStrToInt_pyIntRepr (i : Int) :
    pyStrToInt (pyIntRepr i) = some i := by
  unfold pyIntRepr
  by_cases hneg : i < 0
  · simp only [hneg, if_true]
    have hdat : ("-" ++ pyNatRepr (-i).toNat).data
        = '-' :: (pyNatRepr (-i).toNat).data := rfl
    unfold pyStrToInt
    simp [hdat, parseDigits_pyNatRepr,
      Int.toNat_of_nonneg (show (0 : Int) ≤ -i by omega)]
  · simp only [hneg, if_false]
    cases hd : (pyNatRepr i.toNat).data with
    | nil => exact absurd hd (pyNatRepr_ne_nil _)
    | cons c rest =>
      have hmem : c ∈ (pyNatRepr i.toNat).data := by rw [hd]; simp
      have hcr := pyNatRepr_chars hmem
      have hc : c ≠ '-' := by
        rintro rfl
        revert hcr
        decide
      unfold pyStrToInt
      simp only [hd]
      rw [if_neg hc, ← hd]
      simp [parseDigits_pyNatRepr,
        Int.toNat_of_nonneg (show (0 : Int) ≤ i by omega)]

/-! ### Lemmas for the BED round trip: tokenisation -/

theorem splitWsAux_token :
    ∀ (tok cs acc : List Char), (∀ c ∈ tok, isWsChar c = false) →
      splitWsAux (tok ++ cs) acc = splitWsAux cs (tok.reverse ++ acc) := by
  intro tok
  induction tok with
  | nil => intro cs acc _; simp
  | cons c tok ih =>
    intro cs acc h
    have hc : isWsChar c = false := h c (by simp)
    simp only [List.cons_append, splitWsAux, hc, Bool.false_eq_true, if_false,
      List.append_eq]
    rw [ih cs (c :: acc) (fun x hx => h x (by simp [hx]))]
    simp

theorem splitWs_joinSep :
    ∀ (fs : List (List Char)),
      (∀ f ∈ fs, f ≠ [] ∧ ∀ c ∈ f, isWsChar c = false) →
      splitWs (joinSep ['\t'] fs) = fs
  | [], _ => rfl
  | [f], h => by
    have hf := h f (by simp)
    unfold splitWs joinSep
    have ht := splitWsAux_token f [] [] hf.2
    rw [List.append_nil] at ht
    rw [ht]
    simp [splitWsAux, hf.1]
  | f :: f' :: fs, h => by
    have hf := h f (by simp)
    have hrest : ∀ g ∈ f' :: fs, g ≠ [] ∧ ∀ c ∈ g, isWsChar c = false :=
      fun g hg => h g (by simp [hg])
    unfold splitWs
    have hj : joinSep ['\t'] (f :: f' :: fs)
        = f ++ ('\t' :: joinSep ['\t'] (f' :: fs)) := by
      simp [joinSep]
    rw [hj, splitWsAux_token f _ [] hf.2, List.append_nil]
    have ih := splitWs_joinSep (f' :: fs) hrest
    unfold splitWs at ih
    have hws : isWsChar '\t' = true := by decide
    simp [splitWsAux, hws, hf.1, ih]

theorem splitNlAux_line :
    ∀ (line cs acc : List Char), (∀ c ∈ line, c ≠ '\n') →
      splitNlAux (line ++ '\n' :: cs) acc
        = (acc.reverse ++ line) :: splitNlAux cs [] := by
  intro line
  induction line with
  | nil => intro cs acc _; simp [splitNlAux]
  | cons c line ih =>
    intro cs acc h
    have hc : c ≠ '\n' := h c (by simp)
    simp only [List.cons_append, splitNlAux, List.append_eq]
    rw [if_neg hc, ih cs (c :: acc) (fun x hx => h x (by simp [hx]))]
    simp

theorem splitNl_lines :
    ∀ (lns : List (List Char)),
      (∀ l ∈ lns, ∀ c ∈ l, c ≠ '\n') →
      splitNl ((lns.map (fun l => l ++ ['\n'])).flatten) = lns := by
  intro lns
  induction lns with
  | nil => intro _; rfl
  | cons l lns ih =>
    intro h
    simp only [List.map_cons, List.flatten_cons]
    unfold splitNl
    have hassoc : (l ++ ['\n']) ++ (lns.map (fun g => g ++ ['\n'])).flatten
        = l ++ '\n' :: (lns.map (fun g => g ++ ['\n'])).flatten := by simp
    rw [hassoc, splitNlAux_line l _ [] (h l (by simp))]
    simp only [List.reverse_nil, List.nil_append]
    congr 1
    exact ih (fun g hg => h g (by simp [hg]))

theorem splitOnChar_ne_nil (sep : Char) :
    ∀ (cs acc : List Char), splitOnChar sep cs acc ≠ [] := by
  intro cs
  induction cs with
  | nil => intro acc; simp [splitOnChar]
  | cons c rest ih =>
    intro acc
    simp only [splitOnChar]
    by_cases hc : c = sep
    · rw [if_pos hc]; simp
    · rw [if_neg hc]; exact ih _

theorem splitOnChar_token {sep : Char} :
    ∀ (tok cs acc : List Char), (∀ c ∈ tok, c ≠ sep) →
      splitOnChar sep (tok ++ sep :: cs) acc
        = (acc.reverse ++ tok) :: splitOnChar sep cs [] := by
  intro tok
  induction tok with
  | nil => intro cs acc _; simp [splitOnChar]
  | cons c tok ih =>
    intro cs acc h
    have hc : c ≠ sep := h c (by simp)
    simp only [List.cons_append, splitOnChar, List.append_eq]
    rw [if_neg hc, ih cs (c :: acc) (fun x hx => h x (by simp [hx]))]
    simp

theorem splitOnChar_last {sep : Char} :
    ∀ (tok acc : List Char), (∀ c ∈ tok, c ≠ sep) →
      splitOnChar sep tok acc = [acc.reverse ++ tok] := by
  intro tok
  induction tok with
  | nil => intro acc _; simp [splitOnChar]
  | cons c tok ih =>
    intro acc h
    have hc : c ≠ sep := h c (by simp)
    simp only [splitOnChar]
    rw [if_neg hc, ih (c :: acc) (fun x hx => h x (by simp [hx]))]
    simp

/-! ### Lemmas for the BED round trip: per-row parsing -/

theorem string_data_append (s t : String) :
    (s ++ t).data = s.data ++ t.data := rfl

theorem mapM_loop_some {α β : Type} (f : α → Option β) (g : α → β) :
    ∀ (l : List α) (acc : List β), (∀ x ∈ l, f x = some (g x)) →
      List.mapM.loop f l acc = some (acc.reverse ++ l.map g) := by
  intro l
  induction l with
  | nil => intro acc _; simp [List.mapM.loop]
  | cons a as ih =>
    intro acc h
    simp only [List.mapM.loop]
    rw [h a (by simp)]
    show List.mapM.loop f as (g a :: acc) = _
    rw [ih (g a :: acc) (fun x hx => h x (by simp [hx]))]
    simp

theorem mapM_some {α β : Type} (f : α → Option β) (g : α → β) (l : List α)
    (h : ∀ x ∈ l, f x = some (g x)) : l.mapM f = some (l.map g) := by
  show List.mapM.loop f l [] = some (l.map g)
  rw [mapM_loop_some f g l [] h]
  simp

theorem dna_clean {c : Char} (h : isDnaChar c = true) :
    isWsChar c = false ∧ c ≠ '\n' ∧ c ≠ '_' := by
  simp only [isDnaChar, decide_eq_true_eq] at h
  rcases h with rfl | rfl | rfl | rfl <;>
    exact ⟨by decide, by decide, by decide⟩

theorem name_split_left (pfx : String) (amp i : Int)
    (hpfx : ∀ c ∈ pfx.data, c ≠ '_') :
    splitOnChar '_'
      ((pfx ++ "_" ++ pyIntRepr amp ++ "_LEFT_" ++ pyIntRepr i) : String).data
      []
      = [pfx.data, (pyIntRepr amp).data, ['L', 'E', 'F', 'T'],
         (pyIntRepr i).data] := by
  have hd : ((pfx ++ "_" ++ pyIntRepr amp ++ "_LEFT_" ++ pyIntRepr i)
      : String).data
      = pfx.data ++ '_' :: ((pyIntRepr amp).data
        ++ '_' :: (['L', 'E', 'F', 'T'] ++ '_' :: (pyIntRepr i).data)) := by
    simp only [string_data_append]
    simp
  rw [hd, splitOnChar_token _ _ [] hpfx,
    splitOnChar_token _ _ [] (fun c hc => (pyIntRepr_clean hc).2),
    splitOnChar_token _ _ [] (by decide),
    splitOnChar_last _ [] (fun c hc => (pyIntRepr_clean hc).2)]
  simp

theorem name_split_right (pfx : String) (amp i : Int)
    (hpfx : ∀ c ∈ pfx.data, c ≠ '_') :
    splitOnChar '_'
      ((pfx ++ "_" ++ pyIntRepr amp ++ "_RIGHT_" ++ pyIntRepr i) : String).data
      []
      = [pfx.data, (pyIntRepr amp).data, ['R', 'I', 'G', 'H', 'T'],
         (pyIntRepr i).data] := by
  have hd : ((pfx ++ "_" ++ pyIntRepr amp ++ "_RIGHT_" ++ pyIntRepr i)
      : String).data
      = pfx.data ++ '_' :: ((pyIntRepr amp).data
        ++ '_' :: (['R', 'I', 'G', 'H', 'T'] ++ '_'
          :: (pyIntRepr i).data)) := by
    simp only [string_data_append]
    simp
  rw [hd, splitOnChar_token _ _ [] hpfx,
    splitOnChar_token _ _ [] (fun c hc => (pyIntRepr_clean hc).2),
    splitOnChar_token _ _ [] (by decide),
    splitOnChar_last _ [] (fun c hc => (pyIntRepr_clean hc).2)]
  simp

theorem parseBedLine_renderRow (r : BedRow) (amp : Int)
    (href : r.ref.data ≠ [] ∧ ∀ c ∈ r.ref.data, isWsChar c = false)
    (hname : r.primername.data ≠ [] ∧
      ∀ c ∈ r.primername.data, isWsChar c = false)
    (hdir : r.direction.data ≠ [] ∧
      ∀ c ∈ r.direction.data, isWsChar c = false)
    (hseq : r.sequence.data ≠ [] ∧
      ∀ c ∈ r.sequence.data, isWsChar c = false)
    (hamp : (splitOnChar '_' r.primername.data []).get? 1
        = some (pyIntRepr amp).data) :
    parseBedLine (splitWs (renderRow r)) = some (lineOfRowAmp r amp) := by
  have hclean : ∀ f ∈ [r.ref.data, (pyIntRepr r.startPos).data,
      (pyIntRepr r.stopPos).data, r.primername.data,
      (pyIntRepr r.pool1).data, r.direction.data, r.sequence.data],
      f ≠ [] ∧ ∀ c ∈ f, isWsChar c = false := by
    intro f hf
    simp only [List.mem_cons, List.not_mem_nil, or_false] at hf
    rcases hf with rfl | rfl | rfl | rfl | rfl | rfl | rfl
    · exact href
    · exact ⟨pyIntRepr_ne_nil _, fun c hc => (pyIntRepr_clean hc).1⟩
    · exact ⟨pyIntRepr_ne_nil _, fun c hc => (pyIntRepr_clean hc).1⟩
    · exact hname
    · exact ⟨pyIntRepr_ne_nil _, fun c hc => (pyIntRepr_clean hc).1⟩
    · exact hdir
    · exact hseq
  unfold renderRow
  rw [splitWs_joinSep _ hclean]
  have he : ∀ s : String, (⟨s.data⟩ : String) = s := fun s => rfl
  have hamp' : (splitOnChar '_' r.primername.data [])[1]?
      = some (pyIntRepr amp).data := by
    rw [← List.get?_eq_getElem?]
    exact hamp
  simp [parseBedLine, he, pyStrToInt_pyIntRepr, hamp', lineOfRowAmp]

theorem chars_append_clean {A B : List Char} {P : Char → Prop}
    (hA : ∀ c ∈ A, P c) (hB : ∀ c ∈ B, P c) : ∀ c ∈ A ++ B, P c := by
  intro c hc
  rcases List.mem_append.mp hc with h | h
  · exact hA c h
  · exact hB c h

theorem name_clean_left (pfx : String) (amp i : Int)
    (hpfx : ∀ c ∈ pfx.data, isWsChar c = false) :
    ((pfx ++ "_" ++ pyIntRepr amp ++ "_LEFT_" ++ pyIntRepr i)
      : String).data ≠ []
    ∧ ∀ c ∈ ((pfx ++ "_" ++ pyIntRepr amp ++ "_LEFT_" ++ pyIntRepr i)
        : String).data, isWsChar c = false := by
  have hd : ((pfx ++ "_" ++ pyIntRepr amp ++ "_LEFT_" ++ pyIntRepr i)
      : String).data
      = pfx.data ++ ['_'] ++ (pyIntRepr amp).data
        ++ ['_', 'L', 'E', 'F', 'T', '_'] ++ (pyIntRepr i).data := by
    simp only [string_data_append]
  constructor
  · rw [hd]; simp
  · rw [hd]
    exact chars_append_clean (chars_append_clean (chars_append_clean
      (chars_append_clean hpfx (by decide))
      (fun c hc => (pyIntRepr_clean hc).1)) (by decide))
      (fun c hc => (pyIntRepr_clean hc).1)

theorem name_clean_right (pfx : String) (amp i : Int)
    (hpfx : ∀ c ∈ pfx.data, isWsChar c = false) :
    ((pfx ++ "_" ++ pyIntRepr amp ++ "_RIGHT_" ++ pyIntRepr i)
      : String).data ≠ []
    ∧ ∀ c ∈ ((pfx ++ "_" ++ pyIntRepr amp ++ "_RIGHT_" ++ pyIntRepr i)
        : String).data, isWsChar c = false := by
  have hd : ((pfx ++ "_" ++ pyIntRepr amp ++ "_RIGHT_" ++ pyIntRepr i)
      : String).data
      = pfx.data ++ ['_'] ++ (pyIntRepr amp).data
        ++ ['_', 'R', 'I', 'G', 'H', 'T', '_'] ++ (pyIntRepr i).data := by
    simp only [string_data_append]
  constructor
  · rw [hd]; simp
  · rw [hd]
    exact chars_append_clean (chars_append_clean (chars_append_clean
      (chars_append_clean hpfx (by decide))
      (fun c hc => (pyIntRepr_clean hc).1)) (by decide))
      (fun c hc => (pyIntRepr_clean hc).1)

theorem isEmpty_false_ne_nil {γ : Type _} {l : List γ}
    (h : l.isEmpty = false) : l ≠ [] := by
  cases l <;> simp_all

theorem pairWF_facts {p : PrimerPairCore} (hp : pairWF p = true) :
    (∃ cn, p.chromName = some cn ∧ cn.data ≠ [] ∧
      ∀ c ∈ cn.data, isWsChar c = false) ∧
    (∃ pf, p.ampPfx = some pf ∧ pf.data ≠ [] ∧
      ∀ c ∈ pf.data, isWsChar c = false ∧ c ≠ '_') ∧
    p.fprimer.seqs ≠ [] ∧ p.rprimer.seqs ≠ [] ∧
    (∀ s ∈ p.fprimer.seqs, s.data ≠ [] ∧ ∀ c ∈ s.data, isDnaChar c = true) ∧
    (∀ s ∈ p.rprimer.seqs, s.data ≠ [] ∧ ∀ c ∈ s.data, isDnaChar c = true) ∧
    p.fprimer.seqs.Nodup ∧ p.rprimer.seqs.Nodup := by
  unfold pairWF at hp
  cases hc : p.chromName with
  | none => rw [hc] at hp; simp at hp
  | some cn =>
  cases hf : p.ampPfx with
  | none => rw [hc, hf] at hp; simp at hp
  | some pf =>
  rw [hc, hf] at hp
  simp only [Bool.and_eq_true, List.all_eq_true, decide_eq_true_eq,
    Bool.not_eq_true'] at hp
  obtain ⟨⟨⟨⟨⟨⟨⟨⟨hcne, hcnw⟩, hpfe, hpfw⟩, hfe⟩, hre⟩, hfall⟩, hrall⟩,
    hfnd⟩, hrnd⟩ := hp
  refine ⟨⟨cn, rfl, isEmpty_false_ne_nil hcne, hcnw⟩,
    ⟨pf, rfl, isEmpty_false_ne_nil hpfe, hpfw⟩,
    isEmpty_false_ne_nil hfe, isEmpty_false_ne_nil hre, ?_, ?_, hfnd, hrnd⟩
  · intro s hs
    obtain ⟨h1, h2⟩ := hfall s hs
    exact ⟨isEmpty_false_ne_nil h1, h2⟩
  · intro s hs
    obtain ⟨h1, h2⟩ := hrall s hs
    exact ⟨isEmpty_false_ne_nil h1, h2⟩

theorem mem_rowsOfRec {q : BedPairRec} {r : BedRow} (hr : r ∈ rowsOfRec q) :
    (∃ i s, (i, s) ∈ List.enumFrom 1 (pySorted q.fkSeqs) ∧
      r = ⟨q.chromname, q.fkEnd - (s.length : Int), q.fkEnd,
           q.ampPfx ++ "_" ++ pyIntRepr q.ampliconNumber ++ "_LEFT_"
             ++ pyIntRepr (i : Int), q.pool + 1, "+", s⟩) ∨
    (∃ i s, (i, s) ∈ List.enumFrom 1 (pySorted q.rkSeqs) ∧
      r = ⟨q.chromname, q.rkStart, q.rkStart + (s.length : Int),
           q.ampPfx ++ "_" ++ pyIntRepr q.ampliconNumber ++ "_RIGHT_"
             ++ pyIntRepr (i : Int), q.pool + 1, "-", s⟩) := by
  unfold rowsOfRec at hr
  simp only [List.mem_append, List.mem_map] at hr
  rcases hr with ⟨⟨i, s⟩, his, rfl⟩ | ⟨⟨i, s⟩, his, rfl⟩
  · exact Or.inl ⟨i, s, his, rfl⟩
  · exact Or.inr ⟨i, s, his, rfl⟩

theorem parseBedLine_rowsOfPair {p : PrimerPairCore} (hp : pairWF p = true) :
    ∀ r ∈ rowsOfPair p, parseBedLine (splitWs (renderRow r))
      = some (lineOfRowAmp r p.ampliconNumber) := by
  obtain ⟨⟨cn, hcn, hcnne, hcnws⟩, ⟨pf, hpf, hpfne, hpfc⟩, -, -, hfs, hrs,
    -, -⟩ := pairWF_facts hp
  intro r hr
  have hr' : r ∈ rowsOfRec (recOfPair p) := hr
  rcases mem_rowsOfRec hr' with ⟨i, s, his, rfl⟩ | ⟨i, s, his, rfl⟩
  · have hsmem : s ∈ p.fprimer.seqs := by
      have hmap := List.mem_map_of_mem Prod.snd his
      rw [List.enumFrom_map_snd] at hmap
      have := (pySorted_perm _).mem_iff.mp hmap
      simpa [recOfPair] using this
    obtain ⟨hsne, hsdna⟩ := hfs s hsmem
    simp only [recOfPair, hcn, hpf, pyOptStr]
    refine parseBedLine_renderRow _ _ ?_ ?_ ?_ ?_ ?_
    · exact ⟨hcnne, hcnws⟩
    · exact name_clean_left pf _ _ (fun c hc => (hpfc c hc).1)
    · dsimp only
      exact ⟨by decide, by decide⟩
    · exact ⟨hsne, fun c hc => (dna_clean (hsdna c hc)).1⟩
    · rw [name_split_left pf _ _ (fun c hc => (hpfc c hc).2)]
      rfl
  · have hsmem : s ∈ p.rprimer.seqs := by
      have hmap := List.mem_map_of_mem Prod.snd his
      rw [List.enumFrom_map_snd] at hmap
      have := (pySorted_perm _).mem_iff.mp hmap
      simpa [recOfPair] using this
    obtain ⟨hsne, hsdna⟩ := hrs s hsmem
    simp only [recOfPair, hcn, hpf, pyOptStr]
    refine parseBedLine_renderRow _ _ ?_ ?_ ?_ ?_ ?_
    · exact ⟨hcnne, hcnws⟩
    · exact name_clean_right pf _ _ (fun c hc => (hpfc c hc).1)
    · dsimp only
      exact ⟨by decide, by decide⟩
    · exact ⟨hsne, fun c hc => (dna_clean (hsdna c hc)).1⟩
    · rw [name_split_right pf _ _ (fun c hc => (hpfc c hc).2)]
      rfl

theorem mem_joinSep {sep : List Char} {c : Char} :
    ∀ {fs : List (List Char)}, c ∈ joinSep sep fs →
      c ∈ sep ∨ ∃ f ∈ fs, c ∈ f
  | [], h => by cases h
  | [f], h => Or.inr ⟨f, by simp, h⟩
  | f :: f' :: fs, h => by
    have hj : joinSep sep (f :: f' :: fs)
        = (f ++ sep) ++ joinSep sep (f' :: fs) := by
      simp [joinSep]
    rw [hj] at h
    rcases List.mem_append.mp h with h1 | h2
    · rcases List.mem_append.mp h1 with ha | hb
      · exact Or.inr ⟨f, by simp, ha⟩
      · exact Or.inl hb
    · rcases mem_joinSep h2 with hs | ⟨g, hg, hc⟩
      · exact Or.inl hs
      · exact Or.inr ⟨g, by simp [hg], hc⟩

theorem renderRow_no_nl {r : BedRow}
    (href : ∀ c ∈ r.ref.data, isWsChar c = false)
    (hname : ∀ c ∈ r.primername.data, isWsChar c = false)
    (hdir : ∀ c ∈ r.direction.data, isWsChar c = false)
    (hseq : ∀ c ∈ r.sequence.data, isWsChar c = false) :
    ∀ c ∈ renderRow r, c ≠ '\n' := by
  intro c hc
  unfold renderRow at hc
  rcases mem_joinSep hc with hs | ⟨f, hf, hcf⟩
  · have hct : c = '\t' := by simpa using hs
    subst hct; decide
  · simp only [List.mem_cons, List.not_mem_nil, or_false] at hf
    have hws : isWsChar c = false := by
      rcases hf with rfl | rfl | rfl | rfl | rfl | rfl | rfl
      · exact href c hcf
      · exact (pyIntRepr_clean hcf).1
      · exact (pyIntRepr_clean hcf).1
      · exact hname c hcf
      · exact (pyIntRepr_clean hcf).1
      · exact hdir c hcf
      · exact hseq c hcf
    rintro rfl
    exact absurd hws (by decide)

theorem rowsOfPair_clean {p : PrimerPairCore} (hp : pairWF p = true) :
    ∀ r ∈ rowsOfPair p,
      (∀ c ∈ r.ref.data, isWsChar c = false) ∧
      (∀ c ∈ r.primername.data, isWsChar c = false) ∧
      (∀ c ∈ r.direction.data, isWsChar c = false) ∧
      (∀ c ∈ r.sequence.data, isWsChar c = false) := by
  obtain ⟨⟨cn, hcn, hcnne, hcnws⟩, ⟨pf, hpf, hpfne, hpfc⟩, -, -, hfs, hrs,
    -, -⟩ := pairWF_facts hp
  intro r hr
  have hr' : r ∈ rowsOfRec (recOfPair p) := hr
  rcases mem_rowsOfRec hr' with ⟨i, s, his, rfl⟩ | ⟨i, s, his, rfl⟩
  · have hsmem : s ∈ p.fprimer.seqs := by
      have hmap := List.mem_map_of_mem Prod.snd his
      rw [List.enumFrom_map_snd] at hmap
      have := (pySorted_perm _).mem_iff.mp hmap
      simpa [recOfPair] using this
    obtain ⟨hsne, hsdna⟩ := hfs s hsmem
    simp only [recOfPair, hcn, hpf, pyOptStr]
    exact ⟨hcnws,
      (name_clean_left pf _ _ (fun c hc => (hpfc c hc).1)).2,
      by decide,
      fun c hc => (dna_clean (hsdna c hc)).1⟩
  · have hsmem : s ∈ p.rprimer.seqs := by
      have hmap := List.mem_map_of_mem Prod.snd his
      rw [List.enumFrom_map_snd] at hmap
      have := (pySorted_perm _).mem_iff.mp hmap
      simpa [recOfPair] using this
    obtain ⟨hsne, hsdna⟩ := hrs s hsmem
    simp only [recOfPair, hcn, hpf, pyOptStr]
    exact ⟨hcnws,
      (name_clean_right pf _ _ (fun c hc => (hpfc c hc).1)).2,
      by decide,
      fun c hc => (dna_clean (hsdna c hc)).1⟩

theorem renderRows_no_nl {scheme : List PrimerPairCore}
    (h : ∀ p ∈ scheme, pairWF p = true) :
    ∀ l ∈ (scheme.flatMap rowsOfPair).map renderRow, ∀ c ∈ l, c ≠ '\n' := by
  intro l hl
  rcases List.mem_map.mp hl with ⟨r, hr, rfl⟩
  rcases List.mem_flatMap.mp hr with ⟨p, hps, hrp⟩
  obtain ⟨h1, h2, h3, h4⟩ := rowsOfPair_clean (h p hps) r hrp
  exact renderRow_no_nl h1 h2 h3 h4

theorem mapM_loop_map {α β γ : Type} (g : α → β) (f : β → Option γ) :
    ∀ (l : List α) (acc : List γ),
      List.mapM.loop f (l.map g) acc
        = List.mapM.loop (fun a => f (g a)) l acc := by
  intro l
  induction l with
  | nil => intro acc; rfl
  | cons a as ih =>
    intro acc
    simp only [List.map_cons, List.mapM.loop]
    cases hfa : f (g a) with
    | none => rfl
    | some b =>
      show List.mapM.loop f (as.map g) (b :: acc) = _
      rw [ih (b :: acc)]
      rfl

theorem mapM_map {α β γ : Type} (g : α → β) (f : β → Option γ)
    (l : List α) :
    (l.map g).mapM f = l.mapM (fun a => f (g a)) := by
  show List.mapM.loop f (l.map g) [] = List.mapM.loop (fun a => f (g a)) l []
  exact mapM_loop_map g f l []

theorem map_flatMap_my {α β γ : Type} (g : β → γ) (F : α → List β) :
    ∀ l : List α, (l.flatMap F).map g = l.flatMap (fun a => (F a).map g) := by
  intro l
  induction l with
  | nil => rfl
  | cons a as ih => simp only [List.flatMap_cons, List.map_append, ih]

theorem parseBedLines_schemeToBed (scheme : List PrimerPairCore)
    (h : ∀ p ∈ scheme, pairWF p = true) :
    parseBedLines (schemeToBed scheme)
      = some (scheme.flatMap bedLinesOfPair) := by
  unfold parseBedLines schemeToBed
  have hmm : (scheme.flatMap rowsOfPair).map (fun r => renderRow r ++ ['\n'])
      = ((scheme.flatMap rowsOfPair).map renderRow).map
          (fun l => l ++ ['\n']) := by
    rw [List.map_map]
    rfl
  rw [hmm, splitNl_lines _ (renderRows_no_nl h)]
  have hT : (scheme.flatMap rowsOfPair).map renderRow
      = (scheme.flatMap (fun p => (rowsOfPair p).map
          (fun r => (r, p.ampliconNumber)))).map (fun x => renderRow x.1) := by
    rw [map_flatMap_my, map_flatMap_my]
    congr 1
    funext p
    rw [List.map_map]
    rfl
  rw [hT, mapM_map]
  have hpoint : ∀ x ∈ scheme.flatMap (fun p => (rowsOfPair p).map
      (fun r => (r, p.ampliconNumber))),
      parseBedLine (splitWs (renderRow x.1))
        = some (lineOfRowAmp x.1 x.2) := by
    intro x hx
    rcases List.mem_flatMap.mp hx with ⟨p, hps, hxp⟩
    rcases List.mem_map.mp hxp with ⟨r, hrp, rfl⟩
    exact parseBedLine_rowsOfPair (h p hps) r hrp
  rw [mapM_some _ (fun x => lineOfRowAmp x.1 x.2) _ hpoint]
  congr 1
  rw [map_flatMap_my]
  unfold bedLinesOfPair bedLinesOfRec rowsOfPair
  congr 1
  funext p
  rw [List.map_map]
  rfl

theorem pySorted_ne_nil {l : List String} (h : l ≠ []) : pySorted l ≠ [] := by
  intro h0
  apply h
  have hlen := (pySorted_perm l).length_eq
  rw [h0] at hlen
  exact List.length_eq_zero.mp hlen.symm

theorem bedLinesOfPair_key {p : PrimerPairCore} :
    ∀ b ∈ bedLinesOfPair p, b.ref = pyOptStr p.chromName ∧
      b.ampliconNumber = p.ampliconNumber := by
  intro b hb
  rcases List.mem_map.mp hb with ⟨r, hr, rfl⟩
  have hrr : r ∈ rowsOfRec (recOfPair p) := hr
  rcases mem_rowsOfRec hrr with ⟨i, s, his, rfl⟩ | ⟨i, s, his, rfl⟩ <;>
    exact ⟨rfl, rfl⟩

theorem buildAmpPair_compute (ref pfx : String) (amp pool fkEnd rkStart : Int)
    (fseqs rseqs : List String) (Lf Lr : List BedLineP)
    (hLfmap : Lf.map (fun b => b.sequence) = fseqs)
    (hLrmap : Lr.map (fun b => b.sequence) = rseqs)
    (hLfdir : ∀ b ∈ Lf, b.direction = "+")
    (hLrdir : ∀ b ∈ Lr, b.direction = "-")
    (hLfstop : ∀ b ∈ Lf, b.stopPos = fkEnd)
    (hLrstart : ∀ b ∈ Lr, b.startPos = rkStart)
    (hLfpool : ∀ b ∈ Lf, b.pool = pool)
    (hfne : Lf ≠ []) (hrne : Lr ≠ [])
    (hfnd : fseqs.Nodup) (hrnd : rseqs.Nodup) :
    buildAmpPair ref pfx amp (Lf ++ Lr)
      = some ⟨ref, pfx, amp, pool, fkEnd, fseqs, rkStart, rseqs⟩ := by
  have hplus : (Lf ++ Lr).filter (fun b => b.direction = "+") = Lf := by
    rw [List.filter_append]
    have h1 : Lf.filter (fun b => b.direction = "+") = Lf :=
      List.filter_eq_self.mpr (fun b hb => by simp [hLfdir b hb])
    have h2 : Lr.filter (fun b => b.direction = "+") = [] :=
      List.filter_eq_nil_iff.mpr (fun b hb => by simp [hLrdir b hb])
    rw [h1, h2, List.append_nil]
  have hminus : (Lf ++ Lr).filter (fun b => b.direction = "-") = Lr := by
    rw [List.filter_append]
    have h1 : Lf.filter (fun b => b.direction = "-") = [] :=
      List.filter_eq_nil_iff.mpr (fun b hb => by simp [hLfdir b hb])
    have h2 : Lr.filter (fun b => b.direction = "-") = Lr :=
      List.filter_eq_self.mpr (fun b hb => by simp [hLrdir b hb])
    rw [h1, h2, List.nil_append]
  cases hLfc : Lf with
  | nil => exact absurd hLfc hfne
  | cons b0 Lf' =>
  cases hLrc : Lr with
  | nil => exact absurd hLrc hrne
  | cons c0 Lr' =>
  subst hLfc hLrc
  unfold buildAmpPair
  rw [hplus, hminus]
  simp only [List.cons_append, List.head?_cons, List.map_cons]
  show some _ = _
  simp only [List.map_cons] at hLfmap hLrmap
  rw [hLfmap, hLrmap]
  rw [dedupFO_eq_self hfnd, dedupFO_eq_self hrnd]
  rw [hLfpool b0 (by simp), hLfstop b0 (by simp), hLrstart c0 (by simp)]

theorem bedLinesOfPair_split (p : PrimerPairCore) :
    bedLinesOfPair p
      = (List.enumFrom 1 (pySorted p.fprimer.seqs)).map (fun iseq =>
          (⟨pyOptStr p.chromName,
            p.fprimer.endCol - (iseq.2.length : Int), p.fprimer.endCol,
            pyOptStr p.ampPfx ++ "_" ++ pyIntRepr p.ampliconNumber
              ++ "_LEFT_" ++ pyIntRepr (iseq.1 : Int),
            p.pool + 1 - 1, "+", iseq.2, p.ampliconNumber⟩ : BedLineP))
        ++ (List.enumFrom 1 (pySorted p.rprimer.seqs)).map (fun iseq =>
          (⟨pyOptStr p.chromName, p.rprimer.start,
            p.rprimer.start + (iseq.2.length : Int),
            pyOptStr p.ampPfx ++ "_" ++ pyIntRepr p.ampliconNumber
              ++ "_RIGHT_" ++ pyIntRepr (iseq.1 : Int),
            p.pool + 1 - 1, "-", iseq.2, p.ampliconNumber⟩ : BedLineP)) := by
  unfold bedLinesOfPair bedLinesOfRec rowsOfRec recOfPair lineOfRowAmp
  simp only [List.map_append, List.map_map]
  rfl

theorem bedLinesOfPair_ne_nil {p : PrimerPairCore} (hp : pairWF p = true) :
    bedLinesOfPair p ≠ [] := by
  obtain ⟨-, -, hfne, -, -, -, -, -⟩ := pairWF_facts hp
  rw [bedLinesOfPair_split]
  cases hq : pySorted p.fprimer.seqs with
  | nil => exact absurd hq (pySorted_ne_nil hfne)
  | cons s0 ss =>
    simp [List.enumFrom]

theorem buildAmpPair_lines {p : PrimerPairCore} (hp : pairWF p = true) :
    buildAmpPair (pyOptStr p.chromName) (pyOptStr p.ampPfx) p.ampliconNumber
      (bedLinesOfPair p) = some (normRec p) := by
  obtain ⟨-, -, hfne, hrne, -, -, hfnd, hrnd⟩ := pairWF_facts hp
  rw [bedLinesOfPair_split]
  unfold normRec
  refine buildAmpPair_compute _ _ _ p.pool p.fprimer.endCol p.rprimer.start
    (pySorted p.fprimer.seqs) (pySorted p.rprimer.seqs) _ _
    ?_ ?_ ?_ ?_ ?_ ?_ ?_ ?_ ?_ ?_ ?_
  · rw [List.map_map]
    exact List.enumFrom_map_snd 1 _
  · rw [List.map_map]
    exact List.enumFrom_map_snd 1 _
  · intro b hb
    rcases List.mem_map.mp hb with ⟨iseq, -, rfl⟩
    rfl
  · intro b hb
    rcases List.mem_map.mp hb with ⟨iseq, -, rfl⟩
    rfl
  · intro b hb
    rcases List.mem_map.mp hb with ⟨iseq, -, rfl⟩
    rfl
  · intro b hb
    rcases List.mem_map.mp hb with ⟨iseq, -, rfl⟩
    rfl
  · intro b hb
    rcases List.mem_map.mp hb with ⟨iseq, -, rfl⟩
    show p.pool + 1 - 1 = p.pool
    omega
  · cases hq : pySorted p.fprimer.seqs with
    | nil => exact absurd hq (pySorted_ne_nil hfne)
    | cons s0 ss =>
      simp [List.enumFrom]
  · cases hq : pySorted p.rprimer.seqs with
    | nil => exact absurd hq (pySorted_ne_nil hrne)
    | cons s0 ss =>
      simp [List.enumFrom]
  · exact ((pySorted_perm _).nodup_iff).mpr hfnd
  · exact ((pySorted_perm _).nodup_iff).mpr hrnd

theorem schemeBedWF_facts {scheme : List PrimerPairCore}
    (hwf : schemeBedWF scheme = true) :
    (∀ p ∈ scheme, pairWF p = true) ∧
    (scheme.map (fun p => (pyOptStr p.chromName, p.ampliconNumber))).Nodup ∧
    (∀ p ∈ scheme, ∀ q ∈ scheme,
      p.chromName = q.chromName → p.ampPfx = q.ampPfx) := by
  unfold schemeBedWF at hwf
  simp only [Bool.and_eq_true, List.all_eq_true, decide_eq_true_eq] at hwf
  exact ⟨hwf.1.1, hwf.1.2, hwf.2⟩

theorem chrom_eq_of_pyOptStr {p q : PrimerPairCore}
    (hp : pairWF p = true) (hq : pairWF q = true)
    (h : pyOptStr p.chromName = pyOptStr q.chromName) :
    p.chromName = q.chromName := by
  obtain ⟨⟨cn, hcn, -, -⟩, -, -, -, -, -, -, -⟩ := pairWF_facts hp
  obtain ⟨⟨cm, hcm, -, -⟩, -, -, -, -, -, -, -⟩ := pairWF_facts hq
  rw [hcn, hcm] at h ⊢
  simp only [pyOptStr] at h
  rw [h]

theorem bedLinesOfPair_pfx {p : PrimerPairCore} (hp : pairWF p = true) :
    ∀ b ∈ bedLinesOfPair p,
      (splitOnChar '_' b.primername.data []).head?
        = some (pyOptStr p.ampPfx).data := by
  obtain ⟨-, ⟨pf, hpf, -, hpfc⟩, -, -, -, -, -, -⟩ := pairWF_facts hp
  intro b hb
  rcases List.mem_map.mp hb with ⟨r, hr, rfl⟩
  have hrr : r ∈ rowsOfRec (recOfPair p) := hr
  rcases mem_rowsOfRec hrr with ⟨i, s, his, rfl⟩ | ⟨i, s, his, rfl⟩
  · simp only [lineOfRowAmp, recOfPair, hpf, pyOptStr]
    rw [name_split_left pf _ _ (fun c hc => (hpfc c hc).2)]
    rfl
  · simp only [lineOfRowAmp, recOfPair, hpf, pyOptStr]
    rw [name_split_right pf _ _ (fun c hc => (hpfc c hc).2)]
    rfl

theorem filter_flatMap_blocks {α β κ : Type} [DecidableEq κ]
    (key : α → κ) (blockKey : β → κ) (F : β → List α) :
    ∀ (P : List β),
      (∀ q ∈ P, ∀ a ∈ F q, key a = blockKey q) →
      ((P.map blockKey).Nodup) →
      ∀ p ∈ P,
        (P.flatMap F).filter (fun a => key a = blockKey p) = F p := by
  intro P
  induction P with
  | nil => intro _ _ p hp; cases hp
  | cons q P ih =>
    intro hblocks hnd p hp
    simp only [List.flatMap_cons, List.filter_append]
    simp only [List.map_cons, List.nodup_cons] at hnd
    rcases List.mem_cons.mp hp with rfl | hp'
    · have h1 : (F p).filter (fun a => key a = blockKey p) = F p :=
        List.filter_eq_self.mpr (fun a ha => by
          simp [hblocks p (by simp) a ha])
      have h2 : (P.flatMap F).filter (fun a => key a = blockKey p) = [] :=
        List.filter_eq_nil_iff.mpr (fun a ha => by
          rcases List.mem_flatMap.mp ha with ⟨q', hq', haq'⟩
          have hk := hblocks q' (by simp [hq']) a haq'
          simp only [decide_eq_true_eq]
          rw [hk]
          intro hcontra
          exact hnd.1 (hcontra ▸ List.mem_map_of_mem blockKey hq')
          )
      rw [h1, h2, List.append_nil]
    · have h1 : (F q).filter (fun a => key a = blockKey p) = [] :=
        List.filter_eq_nil_iff.mpr (fun a ha => by
          have hk := hblocks q (by simp) a ha
          simp only [decide_eq_true_eq]
          rw [hk]
          intro hcontra
          exact hnd.1 (hcontra.symm ▸ List.mem_map_of_mem blockKey hp')
          )
      rw [h1, List.nil_append]
      exact ih (fun q' hq' => hblocks q' (by simp [hq'])) hnd.2 p hp'

theorem nodup_flatMap_tag {κ ι : Type} [DecidableEq κ] [DecidableEq ι]
    (ks : κ → List ι) :
    ∀ (refs : List κ), refs.Nodup → (∀ r ∈ refs, (ks r).Nodup) →
      (refs.flatMap (fun r => (ks r).map (fun a => (r, a)))).Nodup := by
  intro refs
  induction refs with
  | nil => intro _ _; simp
  | cons r refs ih =>
    intro h1 h2
    simp only [List.flatMap_cons]
    rw [List.nodup_append]
    refine ⟨?_, ?_, ?_⟩
    · exact (h2 r (by simp)).map
        (fun a b hab => congrArg Prod.snd hab)
    · exact ih (List.nodup_cons.mp h1).2
        (fun r' hr' => h2 r' (by simp [hr']))
    · intro x hx1 hx2
      rcases List.mem_map.mp hx1 with ⟨a, -, rfl⟩
      rcases List.mem_flatMap.mp hx2 with ⟨r', hr', hxr'⟩
      rcases List.mem_map.mp hxr' with ⟨a', -, heq⟩
      have : r' = r := congrArg Prod.fst heq
      subst this
      exact (List.nodup_cons.mp h1).1 hr'

theorem reconstructPairs_eq_groups (bls : List BedLineP)
    (hsome : ∀ r ∈ dedupFO (bls.map (fun b => b.ref)),
      ∀ a ∈ groupAmps bls r,
        (buildAmpPair r ⟨groupPfx bls r⟩ a
          ((refLinesOf bls r).filter
            (fun b => b.ampliconNumber = a))).isSome = true) :
    reconstructPairs bls
      = some (((dedupFO (bls.map (fun b => b.ref))).map
          (fun r => (groupAmps bls r).map (groupBuild bls r))).flatten) := by
  unfold reconstructPairs
  rw [mapM_some _ (fun r => (groupAmps bls r).map (groupBuild bls r)) _ ?_]
  · rfl
  · intro r hr
    have hne : refLinesOf bls r ≠ [] := by
      rw [mem_dedupFO] at hr
      rcases List.mem_map.mp hr with ⟨b, hb, rfl⟩
      intro h0
      have hbin : b ∈ refLinesOf bls b.ref := by
        unfold refLinesOf
        rw [List.mem_filter]
        exact ⟨hb, by simp⟩
      rw [h0] at hbin
      cases hbin
    cases hhd : (refLinesOf bls r).head? with
    | none =>
      rw [List.head?_eq_none_iff] at hhd
      exact absurd hhd hne
    | some b0 =>
    cases hsp : (splitOnChar '_' b0.primername.data []).head? with
    | none =>
      rw [List.head?_eq_none_iff] at hsp
      exact absurd hsp (splitOnChar_ne_nil '_' _ _)
    | some pfd =>
    have hpfx : groupPfx bls r = pfd := by
      unfold groupPfx
      rw [hhd]
      simp only [Option.getD_some]
      rw [hsp]
      rfl
    have hrefl : bls.filter (fun b => b.ref = r) = refLinesOf bls r := rfl
    simp only [hrefl, hhd, hsp, Option.bind_eq_bind, Option.some_bind]
    rw [mapM_some _ (groupBuild bls r) _ ?_]
    · rfl
    · intro a ha
      have h1 := hsome r hr a ha
      rw [hpfx] at h1
      cases ho : buildAmpPair r ⟨pfd⟩ a
          ((refLinesOf bls r).filter (fun b => b.ampliconNumber = a)) with
      | none => rw [ho] at h1; cases h1
      | some v =>
        unfold groupBuild
        rw [hpfx, ho]
        rfl

theorem flatMap_map_tag {κ ι ρ : Type} (ks : κ → List ι) (G : κ → ι → ρ) :
    ∀ (refs : List κ),
      refs.flatMap (fun r => (ks r).map (G r))
        = (refs.flatMap (fun r => (ks r).map (fun a => (r, a)))).map
            (fun k => G k.1 k.2) := by
  intro refs
  induction refs with
  | nil => rfl
  | cons r refs ih =>
    simp only [List.flatMap_cons, List.map_append, List.map_map]
    rw [ih]
    rfl

theorem reconstructPairs_scheme (scheme : List PrimerPairCore)
    (hwf : schemeBedWF scheme = true) :
    ∃ pairs, reconstructPairs (scheme.flatMap bedLinesOfPair) = some pairs ∧
      pairs.Perm (scheme.map normRec) := by
  obtain ⟨hall, hkeys, hpfxfun⟩ := schemeBedWF_facts hwf
  set bls := scheme.flatMap bedLinesOfPair with hblsdef
  have hbkey : ∀ b ∈ bls, ∃ p ∈ scheme, b ∈ bedLinesOfPair p ∧
      b.ref = pyOptStr p.chromName ∧
      b.ampliconNumber = p.ampliconNumber := by
    intro b hb
    rw [hblsdef] at hb
    rcases List.mem_flatMap.mp hb with ⟨p, hp, hbp⟩
    obtain ⟨h1, h2⟩ := bedLinesOfPair_key b hbp
    exact ⟨p, hp, hbp, h1, h2⟩
  have hfilterKey : ∀ p ∈ scheme,
      bls.filter (fun b => (b.ref, b.ampliconNumber)
        = (pyOptStr p.chromName, p.ampliconNumber)) = bedLinesOfPair p := by
    intro p hp
    rw [hblsdef]
    exact filter_flatMap_blocks (fun b => (b.ref, b.ampliconNumber))
      (fun p => (pyOptStr p.chromName, p.ampliconNumber)) bedLinesOfPair
      scheme
      (fun q hq b hb => by
        obtain ⟨h1, h2⟩ := bedLinesOfPair_key b hb
        show (b.ref, b.ampliconNumber)
          = (pyOptStr q.chromName, q.ampliconNumber)
        rw [h1, h2]) hkeys p hp
  have hff : ∀ (R : String) (A : Int),
      (refLinesOf bls R).filter (fun b => b.ampliconNumber = A)
        = bls.filter (fun b => (b.ref, b.ampliconNumber) = (R, A)) := by
    intro R A
    unfold refLinesOf
    rw [List.filter_filter]
    apply List.filter_congr
    intro b _
    by_cases h1 : b.ref = R <;> by_cases h2 : b.ampliconNumber = A <;>
      simp [h1, h2, Prod.ext_iff]
  have hmemkey : ∀ (R : String) (A : Int),
      (∃ b ∈ bls, b.ref = R ∧ b.ampliconNumber = A) ↔
        ∃ p ∈ scheme, pyOptStr p.chromName = R ∧ p.ampliconNumber = A := by
    intro R A
    constructor
    · rintro ⟨b, hb, h1, h2⟩
      obtain ⟨p, hp, hbp, k1, k2⟩ := hbkey b hb
      exact ⟨p, hp, by rw [← k1, h1], by rw [← k2, h2]⟩
    · rintro ⟨p, hp, h1, h2⟩
      have hne := bedLinesOfPair_ne_nil (hall p hp)
      obtain ⟨b, hb⟩ := List.exists_mem_of_ne_nil _ hne
      obtain ⟨k1, k2⟩ := bedLinesOfPair_key b hb
      refine ⟨b, ?_, by rw [k1, h1], by rw [k2, h2]⟩
      rw [hblsdef]
      exact List.mem_flatMap.mpr ⟨p, hp, hb⟩
  have hrefmem : ∀ R, R ∈ dedupFO (bls.map (fun b => b.ref)) ↔
      ∃ b ∈ bls, b.ref = R := by
    intro R
    rw [mem_dedupFO]
    constructor
    · intro h
      rcases List.mem_map.mp h with ⟨b, hb, rfl⟩
      exact ⟨b, hb, rfl⟩
    · rintro ⟨b, hb, rfl⟩
      exact List.mem_map_of_mem _ hb
  have hampmem : ∀ R A, A ∈ groupAmps bls R ↔
      ∃ b ∈ bls, b.ref = R ∧ b.ampliconNumber = A := by
    intro R A
    unfold groupAmps
    rw [mem_dedupFO]
    constructor
    · intro h
      rcases List.mem_map.mp h with ⟨b, hb, rfl⟩
      have hbf := List.mem_filter.mp hb
      exact ⟨b, hbf.1, by simpa using hbf.2, rfl⟩
    · rintro ⟨b, hb, h1, h2⟩
      refine List.mem_map.mpr ⟨b, ?_, h2⟩
      unfold refLinesOf
      rw [List.mem_filter]
      exact ⟨hb, by simp [h1]⟩
  have hpfxval : ∀ R ∈ dedupFO (bls.map (fun b => b.ref)),
      ∃ p0 ∈ scheme, pyOptStr p0.chromName = R ∧
        (⟨groupPfx bls R⟩ : String) = pyOptStr p0.ampPfx := by
    intro R hR
    obtain ⟨b, hb, hbR⟩ := (hrefmem R).mp hR
    have hne : refLinesOf bls R ≠ [] := by
      intro h0
      have hbin : b ∈ refLinesOf bls R := by
        unfold refLinesOf
        rw [List.mem_filter]
        exact ⟨hb, by simp [hbR]⟩
      rw [h0] at hbin
      cases hbin
    cases hhd : (refLinesOf bls R).head? with
    | none =>
      rw [List.head?_eq_none_iff] at hhd
      exact absurd hhd hne
    | some b0 =>
      have hb0mem : b0 ∈ refLinesOf bls R := by
        cases hl : refLinesOf bls R with
        | nil => exact absurd hl hne
        | cons x t =>
          rw [hl] at hhd
          simp only [List.head?_cons, Option.some.injEq] at hhd
          rw [List.mem_cons]
          exact Or.inl hhd.symm
      have hb0f := List.mem_filter.mp hb0mem
      have hb0R : b0.ref = R := by simpa using hb0f.2
      obtain ⟨p0, hp0, hb0p, k1, k2⟩ := hbkey b0 hb0f.1
      refine ⟨p0, hp0, by rw [← k1, hb0R], ?_⟩
      have hsp := bedLinesOfPair_pfx (hall p0 hp0) b0 hb0p
      unfold groupPfx
      rw [hhd]
      simp only [Option.getD_some]
      rw [hsp]
      rfl
  have hbuildval : ∀ R ∈ dedupFO (bls.map (fun b => b.ref)),
      ∀ A ∈ groupAmps bls R,
      ∃ q ∈ scheme, pyOptStr q.chromName = R ∧ q.ampliconNumber = A ∧
        buildAmpPair R ⟨groupPfx bls R⟩ A
          ((refLinesOf bls R).filter (fun b => b.ampliconNumber = A))
          = some (normRec q) := by
    intro R hR A hA
    obtain ⟨q, hq, hq1, hq2⟩ := (hmemkey R A).mp ((hampmem R A).mp hA)
    obtain ⟨p0, hp0, hpr, hpfxeq⟩ := hpfxval R hR
    have hchrom : p0.chromName = q.chromName :=
      chrom_eq_of_pyOptStr (hall p0 hp0) (hall q hq) (by rw [hpr, hq1])
    have hpfq : (⟨groupPfx bls R⟩ : String) = pyOptStr q.ampPfx := by
      rw [hpfxeq, hpfxfun p0 hp0 q hq hchrom]
    refine ⟨q, hq, hq1, hq2, ?_⟩
    rw [hpfq, hff R A, ← hq1, ← hq2, hfilterKey q hq]
    exact buildAmpPair_lines (hall q hq)
  have hsome : ∀ R ∈ dedupFO (bls.map (fun b => b.ref)),
      ∀ A ∈ groupAmps bls R,
        (buildAmpPair R ⟨groupPfx bls R⟩ A
          ((refLinesOf bls R).filter
            (fun b => b.ampliconNumber = A))).isSome = true := by
    intro R hR A hA
    obtain ⟨q, -, -, -, he⟩ := hbuildval R hR A hA
    rw [he]
    rfl
  have hval : ∀ p ∈ scheme,
      groupBuild bls (pyOptStr p.chromName) p.ampliconNumber = normRec p := by
    intro p hp
    obtain ⟨b, hb, h1, h2⟩ := (hmemkey (pyOptStr p.chromName)
      p.ampliconNumber).mpr ⟨p, hp, rfl, rfl⟩
    have hR : pyOptStr p.chromName ∈ dedupFO (bls.map (fun b => b.ref)) :=
      (hrefmem _).mpr ⟨b, hb, h1⟩
    have hA : p.ampliconNumber ∈ groupAmps bls (pyOptStr p.chromName) :=
      (hampmem _ _).mpr ⟨b, hb, h1, h2⟩
    obtain ⟨q, hq, hq1, hq2, he⟩ := hbuildval _ hR _ hA
    have hqp : q = p :=
      List.inj_on_of_nodup_map hkeys hq hp (by rw [hq1, hq2])
    unfold groupBuild
    rw [he, hqp]
    rfl
  refine ⟨_, reconstructPairs_eq_groups bls hsome, ?_⟩
  rw [← List.flatMap_def]
  have hkeysmap : (dedupFO (bls.map (fun b => b.ref))).flatMap
      (fun R => (groupAmps bls R).map (groupBuild bls R))
      = ((dedupFO (bls.map (fun b => b.ref))).flatMap
          (fun R => (groupAmps bls R).map (fun A => (R, A)))).map
            (fun k => groupBuild bls k.1 k.2) :=
    flatMap_map_tag (groupAmps bls) (groupBuild bls) _
  rw [hkeysmap]
  have hnodupkeys : ((dedupFO (bls.map (fun b => b.ref))).flatMap
      (fun R => (groupAmps bls R).map (fun A => (R, A)))).Nodup :=
    nodup_flatMap_tag _ _ (nodup_dedupFO _) (fun R _ => nodup_dedupFO _)
  have hmemk : ∀ k : String × Int,
      k ∈ (dedupFO (bls.map (fun b => b.ref))).flatMap
        (fun R => (groupAmps bls R).map (fun A => (R, A))) ↔
      k ∈ scheme.map (fun p => (pyOptStr p.chromName, p.ampliconNumber)) := by
    intro k
    constructor
    · intro hk
      rcases List.mem_flatMap.mp hk with ⟨R, hR, hkR⟩
      rcases List.mem_map.mp hkR with ⟨A, hA, rfl⟩
      obtain ⟨q, hq, h1, h2⟩ := (hmemkey R A).mp ((hampmem R A).mp hA)
      exact List.mem_map.mpr ⟨q, hq, by rw [h1, h2]⟩
    · intro hk
      rcases List.mem_map.mp hk with ⟨p, hp, rfl⟩
      obtain ⟨b, hb, h1, h2⟩ := (hmemkey (pyOptStr p.chromName)
        p.ampliconNumber).mpr ⟨p, hp, rfl, rfl⟩
      refine List.mem_flatMap.mpr ⟨pyOptStr p.chromName, ?_, ?_⟩
      · exact (hrefmem _).mpr ⟨b, hb, h1⟩
      · exact List.mem_map.mpr ⟨p.ampliconNumber,
          (hampmem _ _).mpr ⟨b, hb, h1, h2⟩, rfl⟩
  have hpermk := (List.perm_ext_iff_of_nodup hnodupkeys hkeys).mpr hmemk
  have hfinal := hpermk.map (fun k => groupBuild bls k.1 k.2)
  rw [List.map_map] at hfinal
  have hcongr : scheme.map ((fun k : String × Int => groupBuild bls k.1 k.2)
      ∘ (fun p => (pyOptStr p.chromName, p.ampliconNumber)))
      = scheme.map normRec :=
    List.map_congr_left (fun p hp => hval p hp)
  rw [hcongr] at hfinal
  exact hfinal

theorem rowsOfRec_normRec (p : PrimerPairCore) :
    rowsOfRec (normRec p) = rowsOfPair p := by
  unfold rowsOfPair rowsOfRec normRec recOfPair
  dsimp only
  rw [pySorted_idem, pySorted_idem]

/-- C7 (amended): the BED round trip holds for well-formed finished
schemes: every pair has a chromosome name and an underscore-free
amplicon prefix, non-empty duplicate-free DNA sequence sets,
`(chrom, amplicon_number)` identifies a pair, and the prefix is a
function of the reference. Then serializing with `to_bed` and
re-parsing with `read_in_bedprimerpairs` yields a pair list whose
per-pair BED rows `(chrom, start, end, name, pool, strand, sequence)`
form the same multiset as the original scheme's. -/
theorem claim_C7_amended (scheme : List PrimerPairCore)
    (h : schemeBedWF scheme = true) :
    ∃ pairs, read_in_bedprimerpairs (schemeToBed scheme) = some pairs ∧
      Multiset.ofList (pairs.map rowsOfRec)
        = Multiset.ofList (scheme.map rowsOfPair) := by
  obtain ⟨hall, -, -⟩ := schemeBedWF_facts h
  obtain ⟨recPairs, hrec, hperm⟩ := reconstructPairs_scheme scheme h
  refine ⟨List.insertionSort pairRecLe recPairs, ?_, ?_⟩
  · unfold read_in_bedprimerpairs
    rw [parseBedLines_schemeToBed scheme hall]
    simp only [Option.bind_eq_bind, Option.some_bind]
    rw [hrec]
    rfl
  · have hsortp : (List.insertionSort pairRecLe recPairs).Perm recPairs :=
      List.perm_insertionSort _ _
    have hp2 := hsortp.trans hperm
    have hmap := hp2.map rowsOfRec
    rw [List.map_map] at hmap
    have hcg : scheme.map (rowsOfRec ∘ normRec) = scheme.map rowsOfPair :=
      List.map_congr_left (fun p _ => rowsOfRec_normRec p)
    rw [hcg] at hmap
    exact Quot.sound hmap

/-- C7 counterexample to the unamended claim: two finished pairs, each
with a chromosome name, an underscore-free prefix, an amplicon number,
a pool and non-empty sequence sets, but sharing `(chrom,
amplicon_number)` (the claim does not require that key to be unique).
`read_in_bedprimerpairs` groups lines by that key, so it merges the
two pairs into one and the reparsed list cannot match the original as
a multiset. -/
theorem claim_C7_counterexample :
    pairWF cexC7a = true ∧ pairWF cexC7b = true ∧
    ∃ pairs, read_in_bedprimerpairs (schemeToBed [cexC7a, cexC7b])
        = some pairs ∧
      Multiset.ofList (pairs.map rowsOfRec)
        ≠ Multiset.ofList ([cexC7a, cexC7b].map rowsOfPair) := by
  refine ⟨by decide, by decide, ?_⟩
  have hall : ∀ p ∈ [cexC7a, cexC7b], pairWF p = true := by decide
  set bls := [cexC7a, cexC7b].flatMap bedLinesOfPair with hbls
  have hparse : parseBedLines (schemeToBed [cexC7a, cexC7b])
      = some bls := by
    rw [hbls]
    exact parseBedLines_schemeToBed [cexC7a, cexC7b] hall
  have hrefs : dedupFO (bls.map (fun b => b.ref)) = ["chr1"] := by rfl
  have hamps : groupAmps bls "chr1" = [0] := by rfl
  have hsome : ∀ r ∈ dedupFO (bls.map (fun b => b.ref)),
      ∀ a ∈ groupAmps bls r,
        (buildAmpPair r ⟨groupPfx bls r⟩ a
          ((refLinesOf bls r).filter
            (fun b => b.ampliconNumber = a))).isSome = true := by
    intro r hr a ha
    rw [hrefs] at hr
    have hr' : r = "chr1" := by simpa using hr
    subst hr'
    rw [hamps] at ha
    have ha' : a = 0 := by simpa using ha
    subst ha'
    rfl
  have hgroups := reconstructPairs_eq_groups bls hsome
  rw [hrefs] at hgroups
  simp only [hamps, List.map_cons, List.map_nil] at hgroups
  have hrec : reconstructPairs bls = some [groupBuild bls "chr1" 0] := by
    rw [hgroups]
    rfl
  refine ⟨[groupBuild bls "chr1" 0], ?_, ?_⟩
  · unfold read_in_bedprimerpairs
    rw [hparse]
    simp only [Option.bind_eq_bind, Option.some_bind]
    rw [hrec]
    rfl
  · intro hEq
    have hcard := congrArg Multiset.card hEq
    have h1 : Multiset.card (Multiset.ofList
        (([groupBuild bls "chr1" 0]).map rowsOfRec)) = 1 := rfl
    have h2 : Multiset.card (Multiset.ofList
        (([cexC7a, cexC7b]).map rowsOfPair)) = 2 := rfl
    rw [h1, h2] at hcard
    exact absurd hcard (by decide)

/-- C7 witness: the amended round trip at a concrete two-amplicon
well-formed scheme. -/
theorem claim_C7_witness :
    schemeBedWF demoC7 = true ∧
    (∃ pairs, read_in_bedprimerpairs (schemeToBed demoC7) = some pairs ∧
      Multiset.ofList (pairs.map rowsOfRec)
        = Multiset.ofList (demoC7.map rowsOfPair)) :=
  ⟨by decide, claim_C7_amended demoC7 (by decide)⟩

end Primal
